import Mathlib

/-!
# Crystallization plugin: candidate scanner, decision parser, approval state machine

A shallow embedding of `lib/scanner.js`, `lib/crystallize.js`, `lib/prompt.js` and
`index.js`.

Conventions of the embedding.

* A JSON string is a Lean `String`; text processing works on its `data : List Char`.
* An absent (`undefined`) property is `none`.
* The host built-ins `Date.parse` and `String.prototype.toLowerCase` are parameters
  (`dateParse`, `toLowerCase`) of every function that calls them; `Date.parse`
  answering `NaN` is `none`.  Concrete instances used for evaluation
  (`isoDateParse`, `asciiLowerCase`) agree with the built-ins on the inputs they
  are applied to.
* Clock readings (`Date.now()`, `new Date().toISOString()`) are explicit arguments.
* The two JSON files are the two components of `Store`; a run that returns
  without writing leaves the store as it was.
* The inference service is the function `replies` from the number of a request of the
  run to its reply; the text of a 2xx reply is given by its parse result.  Requests are
  not modelled.
* A raised error is `Except.error`; the host interface is given by the send functions
  it has, and a sent message by the list of messages handed to the host.
-/

namespace Crystallization

/-! ## Data model -/

/-- Embedded crystallization state of a vector (`vector.crystallization`). -/
structure CrystallizationState where
  status : Option String := none
  proposedTrait : Option String := none
  principle : Option String := none
  pattern : Option String := none
  proposedAt : Option String := none
  rejectedAt : Option String := none
  approvedAt : Option String := none
  traitId : Option String := none
deriving DecidableEq, Repr

/-- A growth vector, one element of the vector store. -/
structure Vector where
  id : Option String := none
  text : Option String := none
  created : Option String := none
  resolved : Option Bool := none
  crystallization : Option CrystallizationState := none
deriving DecidableEq, Repr

/-- The part of the merged configuration read by the scanner, the classifier and the
hooks: `enabled`, `gates.minAge`, `crystallization.maxPending`, `gates.principles`,
`crystallization.minVectors` and `prompts.approvalRequest`.  The file of defaults is not
among the sources; the configuration is taken as it is after merging, with the approval
request template a string. -/
structure Config where
  enabled : Bool
  minAge : Option Int := none
  maxPending : Option Int := none
  principles : Option (List String) := none
  minVectors : Option Int := none
  approvalRequest : String := ""
deriving DecidableEq, Repr

/-- Truthiness of an optional string: present and not the empty string. -/
def truthy (s : Option String) : Bool :=
  match s with
  | some t => t != ""
  | none => false

/-- The expression `vector?.crystallization?.status`. -/
def statusOf (v : Vector) : Option String :=
  match v.crystallization with
  | some c => c.status
  | none => none

/-! ## lib/scanner.js -/

/-- Function `isTimeEligible(vector, minAge, nowMs)`. -/
def isTimeEligible (dateParse : String → Option Int) (vector : Vector) (minAge nowMs : Int) :
    Bool :=
  match vector.created with
  | none => false
  | some created =>
    if created = "" then false
    else
      match dateParse created with
      | none => false
      | some createdMs => decide (nowMs - createdMs ≥ minAge)

/-- Function `isBlockedByStatus(vector)`. -/
def isBlockedByStatus (vector : Vector) : Bool :=
  statusOf vector == some "pending_review" || statusOf vector == some "approved"

/-- The count `vectors.filter(v => v?.crystallization?.status === 'pending_review').length`. -/
def pendingCount (vectors : List Vector) : Int :=
  ((vectors.filter (fun v => statusOf v == some "pending_review")).length : Int)

/-- The body of the filter callback of `findCandidates`, with its early returns. -/
def candidateGate (dateParse : String → Option Int) (minAge nowMs : Int) (vector : Vector) :
    Bool :=
  if !truthy vector.id then false
  else if isBlockedByStatus vector then false
  else if vector.resolved == some false then false
  else isTimeEligible dateParse vector minAge nowMs

/-- Function `findCandidates(vectors, config, { nowMs })`. -/
def findCandidates (dateParse : String → Option Int) (vectors : List Vector) (config : Config)
    (nowMs : Int) : List Vector :=
  let minAge := config.minAge.getD 0
  let maxPending := config.maxPending.getD 5
  if pendingCount vectors ≥ maxPending then []
  else vectors.filter (candidateGate dateParse minAge nowMs)

/-- Function `selectCandidatesById(vectors, ids)`. -/
def selectCandidatesById (vectors : List Vector) (ids : List (Option String)) : List Vector :=
  if ids.isEmpty then []
  else vectors.filter (fun vector => ids.contains vector.id)

/-! ## A concrete `Date.parse` for the ECMAScript date-time format in UTC -/

/-- Value of a decimal digit. -/
def digitVal (c : Char) : Option Nat :=
  if c.isDigit then some (c.toNat - 48) else none

/-- Value of a string of decimal digits, most significant first. -/
def digitsVal (cs : List Char) : Option Nat :=
  cs.foldl (fun acc c => acc.bind (fun n => (digitVal c).map (fun d => 10 * n + d))) (some 0)

/-- Days from 1970-01-01 to the given day of the proleptic Gregorian calendar. -/
def daysFromCivil (y m d : Int) : Int :=
  let y1 := if m ≤ 2 then y - 1 else y
  let era := y1 / 400
  let yoe := y1 - era * 400
  let mp := (m + 9) % 12
  let doy := (153 * mp + 2) / 5 + d - 1
  let doe := yoe * 365 + yoe / 4 - yoe / 100 + doy
  era * 146097 + doe - 719468

/-- Number of days of month `m` of year `y`. -/
def daysInMonth (y m : Nat) : Nat :=
  if m = 2 then (if y % 4 = 0 ∧ (y % 100 ≠ 0 ∨ y % 400 = 0) then 29 else 28)
  else if m = 4 ∨ m = 6 ∨ m = 9 ∨ m = 11 then 30 else 31

/-- Milliseconds since the epoch of the fields of a UTC date-time, when they are in range. -/
def utcMillis (y mo d h mi sec ms : Nat) : Option Int :=
  if 1 ≤ mo ∧ mo ≤ 12 ∧ 1 ≤ d ∧ d ≤ daysInMonth y mo ∧ h ≤ 23 ∧ mi ≤ 59 ∧ sec ≤ 59 then
    some ((((daysFromCivil y mo d * 24 + h) * 60 + mi) * 60 + sec) * 1000 + ms)
  else none

/-- The built-in `Date.parse` on the two UTC forms `YYYY-MM-DDTHH:mm:ssZ` and
`YYYY-MM-DDTHH:mm:ss.sssZ` of the ECMAScript date-time string format; every other string
is answered `none`. -/
def isoDateParse (s : String) : Option Int :=
  let cs := s.data
  let num (i n : Nat) : Option Nat := digitsVal ((cs.drop i).take n)
  let sep (i : Nat) (c : Char) : Bool := cs.get? i == some c
  let fields (ms : Option Nat) : Option Int :=
    match num 0 4, num 5 2, num 8 2, num 11 2, num 14 2, num 17 2, ms with
    | some y, some mo, some d, some h, some mi, some sec, some f => utcMillis y mo d h mi sec f
    | _, _, _, _, _, _, _ => none
  if sep 4 '-' && sep 7 '-' && sep 10 'T' && sep 13 ':' && sep 16 ':' then
    if cs.length = 20 && sep 19 'Z' then fields (some 0)
    else if cs.length = 24 && sep 19 '.' && sep 23 'Z' then fields (num 20 3)
    else none
  else none

/-! ## Character classes and regular-expression pieces of `index.js`

The three patterns of `detectApprovalDecision` carry the flag `i` and no flag `u`, `m` or
`s`.  Under these flags a pattern letter matches exactly its two ASCII case variants, `\b`
and `\w` look at `[A-Za-z0-9_]`, `\s` is the WhiteSpace and LineTerminator code points
(the set that `trim` removes), `.` is any character except the four line terminators, and
`$` is the end of the input. -/

/-- The class `\w`: `[A-Za-z0-9_]`. -/
def isWordChar (c : Char) : Bool :=
  let n := c.toNat
  (48 ≤ n && n ≤ 57) || (65 ≤ n && n ≤ 90) || n == 95 || (97 ≤ n && n ≤ 122)

/-- The class `\s`, also the characters removed by `String.prototype.trim`. -/
def isJsSpace (c : Char) : Bool :=
  let n := c.toNat
  (9 ≤ n && n ≤ 13) || n == 0x20 || n == 0xA0 || n == 0x1680 || (0x2000 ≤ n && n ≤ 0x200A) ||
    n == 0x2028 || n == 0x2029 || n == 0x202F || n == 0x205F || n == 0x3000 || n == 0xFEFF

/-- The characters that `.` does not match: LF, CR, LS, PS. -/
def isLineTerminator (c : Char) : Bool :=
  let n := c.toNat
  n == 0x0A || n == 0x0D || n == 0x2028 || n == 0x2029

/-- The method `String.prototype.trim` on the characters of a string. -/
def trimList (cs : List Char) : List Char :=
  ((cs.dropWhile isJsSpace).reverse.dropWhile isJsSpace).reverse

/-- The method `String.prototype.trim`. -/
def jsTrim (s : String) : String :=
  ⟨trimList s.data⟩

/-- The assertion `\b` at a position, given the character before it (if any) and the rest
of the input: exactly one of the two neighbours is a word character. -/
def wordBoundary (prev : Option Char) (rest : List Char) : Bool :=
  (match prev with
    | some c => isWordChar c
    | none => false) !=
  (match rest with
    | c :: _ => isWordChar c
    | [] => false)

/-- A literal of lower-case letters under the flag `i`, matched at the head of the input.
Answers the last character consumed (the given `prev` when the literal is empty) and the
rest of the input. -/
def matchLiteral : List Char → Option Char → List Char → Option (Option Char × List Char)
  | [], prev, s => some (prev, s)
  | _ :: _, _, [] => none
  | p :: ps, _, c :: cs => if c.toLower = p then matchLiteral ps (some c) cs else none

/-- The pattern `\b(w₁|w₂|…)\b` tried at one position. -/
def wordAt (words : List (List Char)) (prev : Option Char) (s : List Char) : Bool :=
  wordBoundary prev s &&
    words.any (fun w =>
      match matchLiteral w prev s with
      | some (last, rest) => wordBoundary last rest
      | none => false)

/-- The call `RegExp.prototype.test` for `\b(w₁|w₂|…)\b`: the pattern is tried at every
position, left to right. -/
def testWords (words : List (List Char)) : Option Char → List Char → Bool
  | prev, [] => wordAt words prev []
  | prev, c :: cs => wordAt words prev (c :: cs) || testWords words (some c) cs

/-- The alternatives of `/\b(yes|approve|crystallize)\b/i`. -/
def approveWords : List (List Char) :=
  ["yes".data, "approve".data, "crystallize".data]

/-- The alternatives of `/\b(no|reject|skip)\b/i`. -/
def rejectWords : List (List Char) :=
  ["no".data, "reject".data, "skip".data]

/-- The tail `(.+)$`: the whole rest of the input, when it is non-empty and free of line
terminators. -/
def dotPlusToEnd (s : List Char) : Option (List Char) :=
  if s ≠ [] ∧ s.all (fun c => !isLineTerminator c) then some s else none

/-- The tail `\s*(.+)$` with the backtracking of the greedy `\s*`: consume a white-space
character and go on; when that fails, let `(.+)$` start here. -/
def spacesThenCapture : List Char → Option (List Char)
  | [] => dotPlusToEnd []
  | c :: cs =>
    if isJsSpace c then
      match spacesThenCapture cs with
      | some cap => some cap
      | none => dotPlusToEnd (c :: cs)
    else dotPlusToEnd (c :: cs)

/-- The piece `\s*:`; answers the input after the colon.  A white-space character is not
a colon, so giving one back never opens another match. -/
def spacesThenColon : List Char → Option (List Char)
  | [] => none
  | c :: cs =>
    if isJsSpace c then spacesThenColon cs
    else if c = ':' then some cs
    else none

/-- The pattern `\bedit\s*:\s*(.+)$` tried at one position; answers capture group 1. -/
def editAt (prev : Option Char) (s : List Char) : Option (List Char) :=
  if wordBoundary prev s then
    match matchLiteral "edit".data prev s with
    | some (_, rest) =>
      match spacesThenColon rest with
      | some afterColon => spacesThenCapture afterColon
      | none => none
    | none => none
  else none

/-- The call `text.match(/\bedit\s*:\s*(.+)$/i)`: the leftmost position where the pattern
matches; answers capture group 1. -/
def editMatch : Option Char → List Char → Option (List Char)
  | prev, [] => editAt prev []
  | prev, c :: cs =>
    match editAt prev (c :: cs) with
    | some cap => some cap
    | none => editMatch (some c) cs

/-! ## index.js: the decision parser -/

/-- The four values of `decision`. -/
inductive Decision where
  | none
  | approve
  | reject
  | edit
deriving DecidableEq, Repr

/-- The object returned by `detectApprovalDecision`; `editText` is absent unless the
decision is `edit`. -/
structure ApprovalDecision where
  decision : Decision
  editText : Option String := none
deriving DecidableEq, Repr

/-- Function `detectApprovalDecision(messageText)`; an absent argument is `none`. -/
def detectApprovalDecision (toLowerCase : String → String) (messageText : Option String) :
    ApprovalDecision :=
  let text := jsTrim (toLowerCase (messageText.getD ""))
  if text = "" then { decision := Decision.none }
  else
    match editMatch none text.data with
    | some cap => { decision := Decision.edit, editText := some (jsTrim ⟨cap⟩) }
    | none =>
      let hasApprove := testWords approveWords none text.data
      let hasReject := testWords rejectWords none text.data
      if hasApprove && !hasReject then { decision := Decision.approve }
      else if hasReject && !hasApprove then { decision := Decision.reject }
      else { decision := Decision.none }

/-- The method `String.prototype.toLowerCase` on strings of ASCII characters; characters
outside ASCII are left as they are. -/
def asciiLowerCase (s : String) : String :=
  ⟨s.data.map Char.toLower⟩

/-! ## Specification-side predicates -/

/-- The four gates of the candidate scanner, as the specification words them: a non-empty
identity key; a status that is neither `pending_review` nor `approved`; `resolved` not
explicitly `false`; a `created` that parses, at least `minAge` before `now`. -/
def Eligible (dateParse : String → Option Int) (config : Config) (nowMs : Int) (v : Vector) :
    Prop :=
  (∃ i, v.id = some i ∧ i ≠ "") ∧
  (statusOf v ≠ some "pending_review" ∧ statusOf v ≠ some "approved") ∧
  v.resolved ≠ some false ∧
  (∃ c t, v.created = some c ∧ dateParse c = some t ∧ nowMs - t ≥ config.minAge.getD 0)

/-- The three vectors of `testFindCandidates` in `test/test.js`. -/
def testVectors : List Vector :=
  [ { id := some "vec_old", text := some "old and resolved",
      created := some "2025-12-01T00:00:00Z", resolved := some true },
    { id := some "vec_new", text := some "too recent",
      created := some "2026-02-10T00:00:00Z", resolved := some true },
    { id := some "vec_pending", text := some "already pending",
      created := some "2025-12-01T00:00:00Z", resolved := some true,
      crystallization := some { status := some "pending_review" } } ]

/-- The configuration of `testFindCandidates`: thirty days, at most five pending. -/
def testConfig : Config :=
  { enabled := true, minAge := some (1000 * 60 * 60 * 24 * 30), maxPending := some 5 }

/-- An enabled configuration with no gate set. -/
def liveConfig : Config :=
  { enabled := true }

/-- A pattern word: non-empty and made of word characters. -/
def LowerWord (w : List Char) : Prop :=
  w ≠ [] ∧ ∀ p ∈ w, isWordChar p = true

/-- The word `w` occurs in `s`, in any letter case, between two word boundaries, the
character before `s` being `prev`. -/
def WholeWordAfter (prev : Option Char) (w s : List Char) : Prop :=
  ∃ pre mid post, s = pre ++ mid ++ post ∧ mid.map Char.toLower = w ∧
    (∀ c, pre.getLast?.or prev = some c → isWordChar c = false) ∧
    (∀ c, post.head? = some c → isWordChar c = false)

/-- The text `s` contains the whole word `w` case-insensitively: `s` splits as
`pre ++ mid ++ post` where `mid` is `w` up to letter case, `pre` does not end and `post`
does not start with a word character. -/
def WholeWordIn (w s : List Char) : Prop :=
  ∃ pre mid post, s = pre ++ mid ++ post ∧ mid.map Char.toLower = w ∧
    (∀ c, pre.getLast? = some c → isWordChar c = false) ∧
    (∀ c, post.head? = some c → isWordChar c = false)

/-- The text contains one of the given words as a whole word. -/
def HasWordOf (words : List (List Char)) (s : List Char) : Prop :=
  ∃ w ∈ words, WholeWordIn w s

/-- The shape of an edit message as the claim words it: `edit` in any letter case starting
at a word boundary, optional white space, a colon, optional white space, and a non-empty
free text running to the end. -/
def EditShape (text : List Char) : Prop :=
  ∃ pre kw ws1 ws2 body, text = pre ++ kw ++ ws1 ++ [':'] ++ ws2 ++ body ∧
    kw.map Char.toLower = "edit".data ∧
    (∀ c, pre.getLast? = some c → isWordChar c = false) ∧
    (∀ c ∈ ws1, isJsSpace c = true) ∧ (∀ c ∈ ws2, isJsSpace c = true) ∧ body ≠ []

/-- The shape of an edit message whose free text holds no line terminator. -/
def EditShapeOneLine (text : List Char) : Prop :=
  ∃ pre kw ws1 ws2 body, text = pre ++ kw ++ ws1 ++ [':'] ++ ws2 ++ body ∧
    kw.map Char.toLower = "edit".data ∧
    (∀ c, pre.getLast? = some c → isWordChar c = false) ∧
    (∀ c ∈ ws1, isJsSpace c = true) ∧ (∀ c ∈ ws2, isJsSpace c = true) ∧ body ≠ [] ∧
    (∀ c ∈ body, isLineTerminator c = false)

/-! ## lib/crystallize.js: the principle aggregator -/

/-- A JSON value as far as the property reads of `lib/crystallize.js` tell values apart;
the value of an absent key is `undefined`.  A number is given as an integer (a fraction
behaves as any number other than zero), and `compound` is any array or object. -/
inductive JsValue where
  | undefined
  | null
  | bool (b : Bool)
  | number (n : Int)
  | string (s : String)
  | compound
deriving DecidableEq, Repr

/-- One entry of the list returned by `checkPrincipleAlignment`.  The field `confidence`,
a floating-point number that is never read, is left out. -/
structure AlignmentResult where
  vectorId : Option String := none
  principle : String
  rationale : JsValue := JsValue.string ""
deriving DecidableEq, Repr

/-- The assignment `acc[key] = (acc[key] || 0) + 1` on the own properties of the
accumulator, kept in creation order: an existing count is raised in place, a new key is
created at the end with count 1. -/
def bumpCount (acc : List (String × Nat)) (key : String) : List (String × Nat) :=
  match acc with
  | [] => [(key, 1)]
  | (k, n) :: rest => if k = key then (k, n + 1) :: rest else (k, n) :: bumpCount rest key

/-- The array index denoted by a property key, if any: the key is the canonical decimal
numeral of an integer from 0 to 2^32 - 2. -/
def arrayIndex? (key : String) : Option Nat :=
  match key.data with
  | [] => none
  | c :: cs =>
    if c = '0' ∧ cs ≠ [] then none
    else
      match digitsVal (c :: cs) with
      | some n => if n ≤ 4294967294 then some n else none
      | none => none

/-- The list `Object.entries` of an ordinary object whose own properties were created in
the given order: the array-index keys first, in ascending numeric order, then the other
keys in creation order. -/
def objectEntries (props : List (String × Nat)) : List (String × Nat) :=
  (props.filter (fun e => (arrayIndex? e.1).isSome)).insertionSort
      (fun a b => (arrayIndex? a.1).getD 0 ≤ (arrayIndex? b.1).getD 0) ++
    props.filter (fun e => (arrayIndex? e.1).isNone)

/-- Function `chooseDominantPrinciple(alignmentResults)`; `null` is `none`.  The sort of
`Array.prototype.sort` is stable, and the comparator `b[1] - a[1]` orders by falling count.
The accumulator starts as `{}`: the embedding covers principles that do not name a
property inherited from `Object.prototype`. -/
def chooseDominantPrinciple (alignmentResults : List AlignmentResult) : Option String :=
  let countByPrinciple := alignmentResults.foldl (fun acc item => bumpCount acc item.principle) []
  let sorted := (objectEntries countByPrinciple).insertionSort (fun a b => b.2 ≤ a.2)
  match sorted.map (fun e => e.1) with
  | [] => none
  | principle :: _ => if principle = "" then none else some principle

/-- A principle is first-seen dominant in a list of results: it occurs, no principle occurs
more often, and every principle occurring as often has its first occurrence later. -/
def FirstSeenDominant (results : List AlignmentResult) (p : String) : Prop :=
  p ∈ results.map (fun r => r.principle) ∧
  ∀ q ∈ results.map (fun r => r.principle),
    (results.map (fun r => r.principle)).count q ≤ (results.map (fun r => r.principle)).count p ∧
    ((results.map (fun r => r.principle)).count q = (results.map (fun r => r.principle)).count p →
      (results.map (fun r => r.principle)).indexOf p ≤ (results.map (fun r => r.principle)).indexOf q)

/-! ## index.js: the approval state machine -/

/-- The expression `s || d` for an optional string `s`. -/
def orDefault (s : Option String) (d : String) : String :=
  match s with
  | some t => if t = "" then d else t
  | none => d

/-- The expression `Date.parse(v?.crystallization?.proposedAt || 0)`; the number `0` is
converted to the string `"0"` before it is parsed. -/
def proposedMs (dateParse : String → Option Int) (v : Vector) : Option Int :=
  dateParse (orDefault (match v.crystallization with
    | some c => c.proposedAt
    | none => none) "0")

/-- Function `latestPendingGroup(vectors)`.  The sorted array of parsed timestamps is
empty when none parses, and then `latestTimestamp` is `undefined`; the test
`!latestTimestamp` holds for `undefined` and for `0`. -/
def latestPendingGroup (dateParse : String → Option Int) (vectors : List Vector) :
    List Vector :=
  let pending := vectors.filter (fun v => statusOf v == some "pending_review")
  if pending.isEmpty then []
  else
    let sorted := ((pending.map (proposedMs dateParse)).filterMap id).insertionSort
      (fun a b => b ≤ a)
    match sorted with
    | [] => pending
    | latestTimestamp :: _ =>
      if latestTimestamp = 0 then pending
      else pending.filter (fun v => proposedMs dateParse v == some latestTimestamp)

/-- A trait record, one element of the trait store. -/
structure Trait where
  id : String
  text : String
  principle : String
  pattern : String
  demonstratedCount : Nat
  sources : List (Option String)
  crystallizedAt : String
  approvedBy : String
deriving DecidableEq, Repr

/-- Function `buildTraitRecord({ traitText, principle, pattern, sourceVectors })` of
`lib/crystallize.js`, with its two clock readings `new Date().toISOString()` and
`Date.now()` as arguments. -/
def buildTraitRecord (nowIso : String) (nowMs : Int) (traitText principle pattern : String)
    (sourceVectors : List Vector) : Trait :=
  { id := "trait_" ++ toString nowMs
    text := traitText
    principle := principle
    pattern := pattern
    demonstratedCount := sourceVectors.length
    sources := sourceVectors.map (fun v => v.id)
    crystallizedAt := nowIso
    approvedBy := "chris" }

/-- The two JSON files: the vector collection and the trait collection. -/
structure Store where
  vectors : List Vector
  traits : List Trait
deriving DecidableEq, Repr

/-- One element of `context.messages` or `context.history`. -/
structure ChatMessage where
  role : Option String := none
  content : Option String := none
  text : Option String := none
deriving DecidableEq, Repr

/-- The event context of the `agent_end` hook, with the fields that
`extractLastMessageText` reads; `messageText` is `context.message?.text`, `payloadMessage`
is `context.payload?.message`, and so on. -/
structure Context where
  lastUserMessage : Option String := none
  userMessage : Option String := none
  input : Option String := none
  messageText : Option String := none
  messageContent : Option String := none
  payloadMessage : Option String := none
  payloadText : Option String := none
  messages : Option (List ChatMessage) := none
  history : Option (List ChatMessage) := none
deriving DecidableEq, Repr

/-- The loop of `extractLastMessageText` over the messages, latest first: the first
message whose lower-cased role is `user` or `human` gives the text. -/
def lastUserText (toLowerCase : String → String) : List ChatMessage → String
  | [] => ""
  | msg :: earlier =>
    let role := toLowerCase (orDefault msg.role "")
    if role = "user" ∨ role = "human" then
      jsTrim (orDefault msg.content (orDefault msg.text ""))
    else lastUserText toLowerCase earlier

/-- Function `extractLastMessageText(context)`. -/
def extractLastMessageText (toLowerCase : String → String) (context : Context) : String :=
  let candidates := [context.lastUserMessage, context.userMessage, context.input,
    context.messageText, context.messageContent, context.payloadMessage,
    context.payloadText].filter truthy
  match candidates with
  | some first :: _ => jsTrim first
  | _ =>
    let messages := match context.messages with
      | some m => m
      | none => context.history.getD []
    lastUserText toLowerCase messages.reverse

/-- The clock readings of one run of `onAgentEnd`: `nowIso` of the hook itself, then the
two readings inside `buildTraitRecord`. -/
structure Clock where
  nowIso : String
  recordIso : String
  recordMs : Int
deriving DecidableEq, Repr

/-- The new value of a vector of the group, for each decision: the spread
`{ ...vector, crystallization: { ...(vector.crystallization || {}), … } }`. -/
def applyDecision (decision : Decision) (editText : Option String) (nowIso traitId : String)
    (vector : Vector) : Vector :=
  let prior : CrystallizationState := vector.crystallization.getD {}
  match decision with
  | Decision.reject =>
    let next : CrystallizationState :=
      { prior with status := some "rejected_crystallization", rejectedAt := some nowIso }
    { vector with crystallization := some next }
  | Decision.edit =>
    let next : CrystallizationState :=
      { prior with proposedTrait := editText, proposedAt := some nowIso,
                   status := some "pending_review" }
    { vector with crystallization := some next }
  | Decision.approve =>
    let next : CrystallizationState :=
      { prior with status := some "approved", approvedAt := some nowIso,
                   traitId := some traitId }
    { vector with crystallization := some next }
  | Decision.none => vector

/-- The callback of the three `vectors.map` calls of `onAgentEnd`: a vector whose id is
not in `pendingIds` is returned as it is. -/
def updateVectors (pendingIds : List (Option String)) (decision : Decision)
    (editText : Option String) (nowIso traitId : String) (vectors : List Vector) :
    List Vector :=
  vectors.map (fun vector =>
    if !pendingIds.contains vector.id then vector
    else applyDecision decision editText nowIso traitId vector)

/-- Function `onAgentEnd(context)` as a transformer of the two stores. -/
def onAgentEnd (toLowerCase : String → String) (dateParse : String → Option Int)
    (config : Config) (clock : Clock) (context : Context) (store : Store) : Store :=
  if !config.enabled then store
  else
    let text := extractLastMessageText toLowerCase context
    let parsed := detectApprovalDecision toLowerCase (some text)
    if parsed.decision = Decision.none then store
    else
      match latestPendingGroup dateParse store.vectors with
      | [] => store
      | firstVector :: others =>
        let pending := firstVector :: others
        let pendingIds := pending.map (fun v => v.id)
        match parsed.decision with
        | Decision.reject =>
          let rejected :=
            updateVectors pendingIds Decision.reject none clock.nowIso "" store.vectors
          { store with vectors := rejected }
        | Decision.edit =>
          let edited :=
            updateVectors pendingIds Decision.edit parsed.editText clock.nowIso ""
              store.vectors
          { store with vectors := edited }
        | Decision.approve =>
          let first : CrystallizationState := firstVector.crystallization.getD {}
          let traitRecord := buildTraitRecord clock.recordIso clock.recordMs
            (orDefault first.proposedTrait "Trait crystallized")
            (orDefault first.principle "word")
            (orDefault first.pattern "unknown")
            pending
          let approvedVectors :=
            updateVectors pendingIds Decision.approve none clock.nowIso traitRecord.id
              store.vectors
          { vectors := approvedVectors, traits := store.traits ++ [traitRecord] }
        | Decision.none => store

/-- Two vectors awaiting review, proposed at the epoch instant and one second before. -/
def epochVectors : List Vector :=
  [ { id := some "a", created := some "1969-06-01T00:00:00.000Z",
      crystallization := some
        { status := some "pending_review", proposedTrait := some "I keep my promises",
          principle := some "word", pattern := some "commitment",
          proposedAt := some "1970-01-01T00:00:00.000Z" } },
    { id := some "b", created := some "1969-06-01T00:00:00.000Z",
      crystallization := some
        { status := some "pending_review", proposedTrait := some "I speak up",
          principle := some "courage", pattern := some "candour",
          proposedAt := some "1969-12-31T23:59:59.000Z" } } ]

/-- A store with an earlier pending group (`a`), a later pending group (`b`, `d`), an
approved vector (`c`) and a rejected vector (`e`). -/
def twoGroupStore : Store :=
  { vectors :=
      [ { id := some "a", text := some "kept a promise",
          crystallization := some
            { status := some "pending_review", proposedTrait := some "I keep my promises",
              principle := some "word", pattern := some "commitment",
              proposedAt := some "2026-01-01T00:00:00.000Z" } },
        { id := some "b", text := some "spoke up",
          crystallization := some
            { status := some "pending_review", proposedTrait := some "I speak up",
              principle := some "courage", pattern := some "candour",
              proposedAt := some "2026-01-02T00:00:00.000Z" } },
        { id := some "c", text := some "shipped",
          crystallization := some
            { status := some "approved", proposedAt := some "2026-01-03T00:00:00.000Z",
              approvedAt := some "2026-01-04T00:00:00.000Z", traitId := some "trait_1" } },
        { id := some "d", text := some "asked the hard question",
          crystallization := some
            { status := some "pending_review", proposedTrait := some "I speak up",
              principle := some "courage", pattern := some "candour",
              proposedAt := some "2026-01-02T00:00:00.000Z" } },
        { id := some "e", text := some "stalled",
          crystallization := some
            { status := some "rejected_crystallization",
              proposedAt := some "2026-01-05T00:00:00.000Z",
              rejectedAt := some "2026-01-06T00:00:00.000Z" } } ]
    traits := [] }

/-- Clock readings of 2026-02-01, one millisecond apart. -/
def febClock : Clock :=
  { nowIso := "2026-02-01T00:00:00.000Z", recordIso := "2026-02-01T00:00:00.001Z",
    recordMs := 1769904000001 }

/-- What the accumulator of `chooseDominantPrinciple` holds after the principles `pre`:
one entry per principle, with its number of occurrences, in order of first occurrence. -/
structure CountsOf (pre : List String) (acc : List (String × Nat)) : Prop where
  nodup : (acc.map Prod.fst).Nodup
  count : ∀ e ∈ acc, e.2 = pre.count e.1
  keys : ∀ k, k ∈ acc.map Prod.fst ↔ k ∈ pre
  order : (acc.map Prod.fst).Pairwise (fun a b => pre.indexOf a < pre.indexOf b)

/-- Three vectors that are old enough on 2026-02-20 and were never proposed. -/
def oldVectors : List Vector :=
  [ { id := some "v1", text := some "kept the deadline",
      created := some "2025-11-01T00:00:00Z", resolved := some true },
    { id := some "v2", text := some "returned the call as promised",
      created := some "2025-11-15T00:00:00Z", resolved := some true },
    { id := some "v3", text := some "delivered what was agreed",
      created := some "2025-12-01T00:00:00Z" } ]

/-- The proposal `I keep my promises` of 2026-02-01 as a crystallization state. -/
def promiseProposal : CrystallizationState :=
  { status := some "pending_review", proposedTrait := some "I keep my promises",
    principle := some "word", pattern := some "commitment",
    proposedAt := some "2026-02-01T00:00:00.000Z" }

/-- The three old vectors awaiting review of the proposal `I keep my promises`. -/
def proposedStore : Store :=
  { vectors := oldVectors.map (fun v => { v with crystallization := some promiseProposal })
    traits := [] }

/-- Clock readings of 2026-02-10. -/
def tenthClock : Clock :=
  { nowIso := "2026-02-10T00:00:00.000Z", recordIso := "2026-02-10T00:00:00.000Z",
    recordMs := 1770681600000 }

/-- Two vectors awaiting review, proposed two seconds and one second before the epoch. -/
def preEpochStore : Store :=
  { vectors :=
      [ { id := some "a", created := some "1969-06-01T00:00:00.000Z",
          crystallization := some
            { status := some "pending_review", proposedTrait := some "I keep my promises",
              principle := some "word", pattern := some "commitment",
              proposedAt := some "1969-12-31T23:59:58.000Z" } },
        { id := some "b", created := some "1969-06-01T00:00:00.000Z",
          crystallization := some
            { status := some "pending_review", proposedTrait := some "I speak up",
              principle := some "courage", pattern := some "candour",
              proposedAt := some "1969-12-31T23:59:59.000Z" } } ]
    traits := [] }

/-- Clock readings at the epoch instant. -/
def epochClock : Clock :=
  { nowIso := "1970-01-01T00:00:00.000Z", recordIso := "1970-01-01T00:00:00.000Z",
    recordMs := 0 }

/-! ## lib/prompt.js -/

/-- The pattern `\{(\w+)\}` tried at the head of the input: an opening brace, the longest
run of word characters, which must not be empty, and a closing brace.  Answers the key
and the input after the closing brace. -/
def placeholderAt (s : List Char) : Option (List Char × List Char) :=
  match s with
  | '{' :: cs =>
    match cs.takeWhile isWordChar, cs.dropWhile isWordChar with
    | k :: ks, '}' :: rest => some (k :: ks, rest)
    | _, _ => none
  | _ => none

/-- The call `template.replace(/\{(\w+)\}/g, callback)` on the characters of the template:
at a position where the pattern matches, the value of the key is put out and the scan
resumes after the match (`skip` counts the characters of the match still to pass); at
any other position the character is copied. -/
def replacePlaceholders (value : List Char → List Char) : Nat → List Char → List Char
  | _, [] => []
  | skip + 1, _ :: cs => replacePlaceholders value skip cs
  | 0, c :: cs =>
    match placeholderAt (c :: cs) with
    | some (key, _) => value key ++ replacePlaceholders value (key.length + 1) cs
    | none => c :: replacePlaceholders value 0 cs

/-- The callback `(_match, key) => values[key] ?? ''` for `values = { trait, principle,
count }`, with the result converted to a string.  A key that names a property inherited
from `Object.prototype` reads that property; `inherited` gives its text. -/
def placeholderValue (inherited : String → Option String) (trait principle : String)
    (count : Nat) (key : List Char) : List Char :=
  if key = "trait".data then trait.data
  else if key = "principle".data then principle.data
  else if key = "count".data then (toString count).data
  else ((inherited ⟨key⟩).getD "").data

/-- Function `fillTemplate(template, values)` for `values = { trait, principle, count }`. -/
def fillTemplate (inherited : String → Option String) (template trait principle : String)
    (count : Nat) : String :=
  ⟨replacePlaceholders (placeholderValue inherited trait principle count) 0 template.data⟩

/-- Function `generateApprovalRequest({ template, trait, principle, count })`. -/
def generateApprovalRequest (inherited : String → Option String)
    (template trait principle : String) (count : Nat) : String :=
  fillTemplate inherited template trait principle count

/-- The text contains a placeholder: an opening brace, one or more word characters and a
closing brace. -/
def HasPlaceholder (s : List Char) : Prop :=
  ∃ pre key post, s = pre ++ '{' :: key ++ '}' :: post ∧ key ≠ [] ∧
    ∀ c ∈ key, isWordChar c = true

/-- No property is inherited: the values of all keys other than `trait`, `principle` and
`count` are empty. -/
def noInherited : String → Option String :=
  fun _ => none

/-! ## lib/crystallize.js: classifier and synthesizer -/

/-- Truthiness of a JSON value. -/
def JsValue.truthy : JsValue → Bool
  | JsValue.undefined => false
  | JsValue.null => false
  | JsValue.bool b => b
  | JsValue.number n => n != 0
  | JsValue.string s => s != ""
  | JsValue.compound => true

/-- The value `safeJsonParse(raw)` of the text of a reply, as far as it is read.  It is
`null` when the text is not valid JSON and when it is the JSON text `null`; otherwise the
four property reads `parsed?.principle`, `parsed?.rationale`, `parsed?.trait` and
`parsed?.pattern` give the listed values (`undefined` and `none` for an absent key and for
a value that is not an object).  The trait and the pattern are strings when present: the
stores of this embedding hold strings. -/
inductive Parsed where
  | null
  | fields (principle rationale : JsValue) (trait pattern : Option String)
deriving DecidableEq, Repr

/-- The outcome of one call of `ollamaGenerate`: a response that is not 2xx, with its
status and body, or a 2xx response with a JSON body, given by the parse result of the
text in its field `response`. -/
inductive InferenceReply where
  | failed (status : Nat) (body : String)
  | ok (parsed : Parsed)
deriving DecidableEq, Repr

/-- The errors raised inside a run: the `Error` thrown by `ollamaGenerate` on a response
that is not 2xx, and a `TypeError`. -/
inductive RunError where
  | requestFailed (status : Nat) (body : String)
  | typeError
deriving DecidableEq, Repr

/-- The value `parsed?.principle`. -/
def Parsed.principle : Parsed → JsValue
  | Parsed.null => JsValue.undefined
  | Parsed.fields principle _ _ _ => principle

/-- The expression `(parsed?.principle || '').toLowerCase()`: a falsy value gives way to
the empty string, a string is lower-cased, and any other value has no method
`toLowerCase`, so that the call raises a `TypeError`. -/
def loweredPrinciple (toLowerCase : String → String) (value : JsValue) :
    Except RunError String :=
  if !value.truthy then Except.ok (toLowerCase "")
  else
    match value with
    | JsValue.string s => Except.ok (toLowerCase s)
    | _ => Except.error RunError.typeError

/-- The expression `config?.gates?.principles || ['courage', 'word', 'brand']`. -/
def allowedPrinciples (config : Config) : List String :=
  config.principles.getD ["courage", "word", "brand"]

/-- The body of the loop of `checkPrincipleAlignment` for one vector and the reply to its
request: the entry pushed to `results`, if any.  Inside the `if` the source reads
`parsed.confidence` without `?.`, which raises a `TypeError` when `parsed` is `null`. -/
def classifyVector (toLowerCase : String → String) (principles : List String)
    (vector : Vector) (reply : InferenceReply) : Except RunError (Option AlignmentResult) :=
  match reply with
  | InferenceReply.failed status body => Except.error (RunError.requestFailed status body)
  | InferenceReply.ok parsed =>
    match loweredPrinciple toLowerCase parsed.principle with
    | Except.error e => Except.error e
    | Except.ok principle =>
      if principles.contains principle then
        match parsed with
        | Parsed.null => Except.error RunError.typeError
        | Parsed.fields _ rationale _ _ =>
          Except.ok (some
            { vectorId := vector.id, principle := principle,
              rationale := if rationale.truthy then rationale else JsValue.string "" })
      else Except.ok none

/-- Function `checkPrincipleAlignment(vectors, config)`: one request per vector, in order;
`replies call` is the reply to request number `call` of the run. -/
def checkPrincipleAlignment (toLowerCase : String → String) (config : Config)
    (replies : Nat → InferenceReply) : Nat → List Vector →
    Except RunError (List AlignmentResult)
  | _, [] => Except.ok []
  | call, vector :: rest =>
    match classifyVector toLowerCase (allowedPrinciples config) vector (replies call) with
    | Except.error e => Except.error e
    | Except.ok entry =>
      match checkPrincipleAlignment toLowerCase config replies (call + 1) rest with
      | Except.error e => Except.error e
      | Except.ok results => Except.ok (entry.toList ++ results)

/-- The object returned by `synthesizeTrait`, without the floating-point `confidence`. -/
structure Synthesis where
  trait : String
  pattern : String
deriving DecidableEq, Repr

/-- Function `synthesizeTrait(vectors, principle, config)` on the reply to its request. -/
def synthesizeTrait (reply : InferenceReply) : Except RunError Synthesis :=
  match reply with
  | InferenceReply.failed status body => Except.error (RunError.requestFailed status body)
  | InferenceReply.ok Parsed.null => Except.ok { trait := "", pattern := "unknown" }
  | InferenceReply.ok (Parsed.fields _ _ trait pattern) =>
    Except.ok { trait := orDefault trait "", pattern := orDefault pattern "unknown" }

/-! ## index.js: the proposal run -/

/-- The host interface as far as `sendMessage` probes it: whether `api.message.send`
exists and whether `api.messages.send` exists. -/
structure Api where
  messageSend : Bool
  messagesSend : Bool
deriving DecidableEq, Repr

/-- Function `sendMessage(api, message)`: the messages handed to the host. -/
def sendMessage (api : Api) (message : String) : List String :=
  if api.messageSend then [message]
  else if api.messagesSend then [message]
  else []

/-- The object returned by `runCrystallization`. -/
structure RunResult where
  status : String
  count : Option Nat := none
  principle : Option String := none
  proposedTrait : Option String := none
deriving DecidableEq, Repr

/-- The result of a run together with its effects: the vector collection after the run,
whether the collection was written, and the messages handed to the host. -/
structure RunOutcome where
  result : RunResult
  vectors : List Vector
  wrote : Bool
  sent : List String
deriving DecidableEq, Repr

/-- The expression `config.crystallization.minVectors || 3`. -/
def minVectorsOf (config : Config) : Int :=
  match config.minVectors with
  | some m => if m = 0 then 3 else m
  | none => 3

/-- The candidates of a run: `selectCandidatesById` when `candidateIds` is a non-empty
array, `findCandidates` otherwise. -/
def sourceCandidatesOf (dateParse : String → Option Int) (config : Config)
    (candidateIds : Option (List (Option String))) (nowMs : Int) (vectors : List Vector) :
    List Vector :=
  match candidateIds with
  | some (id :: ids) => selectCandidatesById vectors (id :: ids)
  | _ => findCandidates dateParse vectors config nowMs

/-- The crystallization state stamped on an aligned vector; it replaces the prior state. -/
def proposalState (synthesis : Synthesis) (principle nowIso : String) : CrystallizationState :=
  { status := some "pending_review", proposedTrait := some synthesis.trait,
    principle := some principle, pattern := some synthesis.pattern,
    proposedAt := some nowIso }

/-- The vectors of `sourceCandidates` whose id is the `vectorId` of an entry of the
alignment with the given principle. -/
def alignedVectorsOf (alignment : List AlignmentResult) (principle : String)
    (sourceCandidates : List Vector) : List Vector :=
  let alignedIds := (alignment.filter (fun a => a.principle == principle)).map
    (fun a => a.vectorId)
  sourceCandidates.filter (fun v => alignedIds.contains v.id)

/-- Function `runCrystallization(candidateIds)`.  `nowMs` is the reading `Date.now()`
inside `findCandidates`, `nowIso` the later reading `new Date().toISOString()`; an error
is raised before anything is written or sent. -/
def runCrystallization (toLowerCase : String → String) (dateParse : String → Option Int)
    (inherited : String → Option String) (config : Config) (api : Api)
    (candidateIds : Option (List (Option String))) (nowMs : Int) (nowIso : String)
    (replies : Nat → InferenceReply) (vectors : List Vector) : Except RunError RunOutcome :=
  let quiet (result : RunResult) : Except RunError RunOutcome :=
    Except.ok { result := result, vectors := vectors, wrote := false, sent := [] }
  if !config.enabled then quiet { status := "disabled" }
  else
    let sourceCandidates := sourceCandidatesOf dateParse config candidateIds nowMs vectors
    if (sourceCandidates.length : Int) < minVectorsOf config then
      quiet { status := "insufficient_candidates", count := some sourceCandidates.length }
    else
      match checkPrincipleAlignment toLowerCase config replies 0 sourceCandidates with
      | Except.error e => Except.error e
      | Except.ok alignment =>
        match chooseDominantPrinciple alignment with
        | none => quiet { status := "no_principle_alignment" }
        | some principle =>
          let alignedVectors := alignedVectorsOf alignment principle sourceCandidates
          if (alignedVectors.length : Int) < minVectorsOf config then
            quiet { status := "insufficient_aligned_vectors",
                    count := some alignedVectors.length }
          else
            match synthesizeTrait (replies sourceCandidates.length) with
            | Except.error e => Except.error e
            | Except.ok synthesis =>
              if synthesis.trait = "" then quiet { status := "empty_synthesis" }
              else
                let byId := alignedVectors.map (fun v => v.id)
                let updatedVectors := vectors.map (fun vector =>
                  if !byId.contains vector.id then vector
                  else
                    { vector with
                      crystallization := some (proposalState synthesis principle nowIso) })
                let approvalMessage := generateApprovalRequest inherited
                  config.approvalRequest synthesis.trait principle alignedVectors.length
                Except.ok
                  { result :=
                      { status := "pending_review", principle := some principle,
                        count := some alignedVectors.length,
                        proposedTrait := some synthesis.trait }
                    vectors := updatedVectors
                    wrote := true
                    sent := sendMessage api approvalMessage }

/-- A host with the function `api.message.send`. -/
def sendingApi : Api :=
  { messageSend := true, messagesSend := false }

/-- A host without any send function, as the empty object passed by `test/test.js`. -/
def silentApi : Api :=
  { messageSend := false, messagesSend := false }

/-- A reply that classifies to the given principle. -/
def classifiedAs (principle : String) : InferenceReply :=
  InferenceReply.ok (Parsed.fields (JsValue.string principle) (JsValue.string "fits")
    none none)

/-- Three classifications to `word`, then the synthesis `I keep my promises` with the
pattern `commitment`. -/
def promiseReplies : Nat → InferenceReply :=
  fun call =>
    if call < 3 then classifiedAs "word"
    else InferenceReply.ok (Parsed.fields JsValue.undefined JsValue.undefined
      (some "I keep my promises") (some "commitment"))

/-- The test configuration with an approval request template. -/
def promptConfig : Config :=
  { testConfig with approvalRequest := "Crystallize \"{trait}\"? ({principle}, {count} vectors)" }

/-- A reply on which the classifier does not raise: a 2xx response whose `principle` is a
string or falsy, and whose parse result is not `null` when the lower-cased empty string is
one of the allowed principles. -/
def ReplyUsable (toLowerCase : String → String) (principles : List String)
    (reply : InferenceReply) : Prop :=
  ∃ parsed, reply = InferenceReply.ok parsed ∧
    (parsed.principle.truthy = true → ∃ s, parsed.principle = JsValue.string s) ∧
    (parsed = Parsed.null → toLowerCase "" ∉ principles)

/-- The outcome of the end-to-end scenario: the three old vectors proposed on 2026-02-20. -/
def promiseOutcome : RunOutcome :=
  { result :=
      { status := "pending_review", count := some 3, principle := some "word",
        proposedTrait := some "I keep my promises" }
    vectors := oldVectors.map (fun v =>
      { v with
        crystallization := some
          { status := some "pending_review", proposedTrait := some "I keep my promises",
            principle := some "word", pattern := some "commitment",
            proposedAt := some "2026-02-20T00:00:00.000Z" } })
    wrote := true
    sent := ["Crystallize \"I keep my promises\"? (word, 3 vectors)"] }

/-- A store with the two pending vectors of `epochVectors` and no trait. -/
def epochStore : Store :=
  { vectors := epochVectors, traits := [] }

/-! # Theorems -/

/-! ## Candidate scanner -/

theorem candidateGate_iff (dateParse : String → Option Int) (hEmpty : dateParse "" = none)
    (config : Config) (nowMs : Int) (v : Vector) :
    candidateGate dateParse (config.minAge.getD 0) nowMs v = true ↔
      Eligible dateParse config nowMs v := by
  unfold candidateGate Eligible isBlockedByStatus isTimeEligible truthy
  rcases hid : v.id with _ | i
  · simp
  · by_cases hi : i = ""
    · simp [hi]
    · by_cases h1 : statusOf v = some "pending_review"
      · simp [hi, h1]
      · by_cases h2 : statusOf v = some "approved"
        · simp [hi, h2]
        · by_cases h3 : v.resolved = some false
          · simp [hi, h1, h2, h3]
          · rcases hc : v.created with _ | c
            · simp [hi, h1, h2, h3]
            · by_cases hce : c = ""
              · subst hce
                simp [hi, h1, h2, h3, hEmpty]
              · rcases hp : dateParse c with _ | t
                · simp [hi, h1, h2, h3, hce, hp]
                · simp [hi, h1, h2, h3, hce, hp]

/-- C1: below the pending ceiling, `findCandidates` returns, in input order, exactly the
vectors that pass all four gates (non-empty id, status not blocking, `resolved` not `false`,
`created` parses and is at least `minAge` old); every other vector is absent. -/
theorem findCandidates_exactly_eligible (dateParse : String → Option Int)
    (hEmpty : dateParse "" = none) (vectors : List Vector) (config : Config) (nowMs : Int)
    (hBelow : pendingCount vectors < config.maxPending.getD 5) :
    (∃ keep : Vector → Bool, (∀ v, keep v = true ↔ Eligible dateParse config nowMs v) ∧
      findCandidates dateParse vectors config nowMs = vectors.filter keep) ∧
    List.Sublist (findCandidates dateParse vectors config nowMs) vectors ∧
    (∀ v, v ∈ findCandidates dateParse vectors config nowMs ↔
      v ∈ vectors ∧ Eligible dateParse config nowMs v) := by
  have hEq : findCandidates dateParse vectors config nowMs =
      vectors.filter (candidateGate dateParse (config.minAge.getD 0) nowMs) := by
    unfold findCandidates
    simp only
    rw [if_neg (not_le.mpr hBelow)]
  refine ⟨⟨_, candidateGate_iff dateParse hEmpty config nowMs, hEq⟩, ?_, ?_⟩
  · rw [hEq]; exact List.filter_sublist _
  · intro v
    rw [hEq, List.mem_filter, candidateGate_iff dateParse hEmpty config nowMs]

/-- The scan of `testFindCandidates`: one vector pending, ceiling five, and the only
candidate is `vec_old`. -/
theorem findCandidates_exactly_eligible_witness :
    pendingCount testVectors < testConfig.maxPending.getD 5 ∧
    (findCandidates isoDateParse testVectors testConfig 1771545600000).map Vector.id
      = [some "vec_old"] ∧
    (∀ v, v ∈ findCandidates isoDateParse testVectors testConfig 1771545600000 ↔
      v ∈ testVectors ∧ Eligible isoDateParse testConfig 1771545600000 v) :=
  ⟨by decide, by decide,
   (findCandidates_exactly_eligible isoDateParse (by decide) testVectors testConfig
      1771545600000 (by decide)).2.2⟩

/-- C2: when the number of `pending_review` vectors reaches `maxPending`, `findCandidates`
returns the empty list whatever the vectors are. -/
theorem findCandidates_empty_at_ceiling (dateParse : String → Option Int)
    (vectors : List Vector) (config : Config) (nowMs : Int)
    (hCeil : pendingCount vectors ≥ config.maxPending.getD 5) :
    findCandidates dateParse vectors config nowMs = [] := by
  unfold findCandidates
  simp only
  rw [if_pos hCeil]

/-- With a ceiling of one, the pending vector of the test store silences the scan although
`vec_old` passes every gate. -/
theorem findCandidates_empty_at_ceiling_witness :
    pendingCount testVectors ≥ ({ testConfig with maxPending := some 1 } : Config).maxPending.getD 5 ∧
    candidateGate isoDateParse (testConfig.minAge.getD 0) 1771545600000
      { id := some "vec_old", text := some "old and resolved",
        created := some "2025-12-01T00:00:00Z", resolved := some true } = true ∧
    findCandidates isoDateParse testVectors { testConfig with maxPending := some 1 }
      1771545600000 = [] :=
  ⟨by decide, by decide,
   findCandidates_empty_at_ceiling isoDateParse testVectors _ 1771545600000 (by decide)⟩

/-! ## Decision parser: whole words -/

theorem toNat_ofNat_small (n : Nat) (h : n < 55296) : (Char.ofNat n).toNat = n := by
  have hv : n.isValidChar := Or.inl h
  simp only [Char.ofNat, hv, Char.toNat, Char.ofNatAux, dite_true]
  rfl

theorem isWordChar_toLower (c : Char) : isWordChar c.toLower = isWordChar c := by
  unfold Char.toLower
  simp only
  split
  · rename_i h
    have h1 : (Char.ofNat (c.toNat + 32)).toNat = c.toNat + 32 :=
      toNat_ofNat_small _ (by omega)
    unfold isWordChar
    simp only [h1]
    have e1 : decide (65 ≤ c.toNat) = true := by simp; omega
    have e2 : decide (c.toNat ≤ 90) = true := by simp; omega
    have e3 : decide (97 ≤ c.toNat + 32) = true := by simp; omega
    have e4 : decide (c.toNat + 32 ≤ 122) = true := by simp; omega
    simp [e1, e2, e3, e4]
  · rfl

theorem space_not_word (c : Char) (h : isJsSpace c = true) : isWordChar c = false := by
  unfold isJsSpace at h
  unfold isWordChar
  simp only [Bool.or_eq_true, Bool.and_eq_true, decide_eq_true_eq, beq_iff_eq] at h
  simp only [Bool.or_eq_false_iff, Bool.and_eq_false_iff, decide_eq_false_iff_not, beq_eq_false_iff_ne]
  omega

theorem getLast?_cons_or (c : Char) (l : List Char) (prev : Option Char) :
    (c :: l).getLast?.or prev = l.getLast?.or (some c) := by
  cases l with
  | nil => simp [Option.or]
  | cons d l =>
    rw [List.getLast?_cons_cons]
    cases h : (d :: l).getLast? with
    | none => simp at h
    | some x => simp [Option.or]

theorem matchLiteral_eq_some (w : List Char) (prev : Option Char) (s : List Char)
    (last : Option Char) (rest : List Char) :
    matchLiteral w prev s = some (last, rest) ↔
      ∃ mid, s = mid ++ rest ∧ mid.map Char.toLower = w ∧ last = mid.getLast?.or prev := by
  induction w generalizing prev s with
  | nil =>
    simp only [matchLiteral, Option.some.injEq, Prod.mk.injEq, List.map_eq_nil_iff]
    constructor
    · rintro ⟨rfl, rfl⟩
      exact ⟨[], by simp [Option.or]⟩
    · rintro ⟨mid, h1, rfl, h3⟩
      simp [Option.or] at h1 h3
      exact ⟨h3.symm, h1⟩
  | cons p ps ih =>
    cases s with
    | nil =>
      simp only [matchLiteral]
      constructor
      · intro h; cases h
      · rintro ⟨mid, h1, h2, _⟩
        cases mid with
        | nil => simp at h2
        | cons c mid => simp at h1
    | cons c cs =>
      simp only [matchLiteral]
      split
      · rename_i hc
        rw [ih]
        constructor
        · rintro ⟨mid, h1, h2, h3⟩
          refine ⟨c :: mid, by simp [h1], by simp [hc, h2], ?_⟩
          rw [getLast?_cons_or]; exact h3
        · rintro ⟨mid, h1, h2, h3⟩
          cases mid with
          | nil => simp at h2
          | cons c2 mid =>
            simp only [List.cons_append, List.cons.injEq, List.map_cons] at h1 h2
            obtain ⟨rfl, h1⟩ := h1
            refine ⟨mid, h1, h2.2, ?_⟩
            rw [getLast?_cons_or] at h3; exact h3
      · rename_i hc
        constructor
        · intro h; cases h
        · rintro ⟨mid, h1, h2, _⟩
          cases mid with
          | nil => simp at h2
          | cons c2 mid =>
            simp only [List.cons_append, List.cons.injEq, List.map_cons] at h1 h2
            obtain ⟨rfl, _⟩ := h1
            exact absurd h2.1 hc

theorem mid_all_word {mid w : List Char} (hm : mid.map Char.toLower = w)
    (hw : ∀ p ∈ w, isWordChar p = true) : ∀ c ∈ mid, isWordChar c = true := by
  intro c hc
  rw [← isWordChar_toLower]
  exact hw _ (hm ▸ List.mem_map_of_mem _ hc)

theorem wordBoundary_head_word (prev : Option Char) (c : Char) (cs : List Char)
    (hc : isWordChar c = true) :
    wordBoundary prev (c :: cs) = true ↔ ∀ x, prev = some x → isWordChar x = false := by
  unfold wordBoundary
  cases prev with
  | none => simp [hc]
  | some y => cases hy : isWordChar y <;> simp [hc, hy]

theorem wordBoundary_prev_word (l : Char) (rest : List Char) (hl : isWordChar l = true) :
    wordBoundary (some l) rest = true ↔ ∀ x, rest.head? = some x → isWordChar x = false := by
  unfold wordBoundary
  cases rest with
  | nil => simp [hl]
  | cons y ys => cases hy : isWordChar y <;> simp [hl, hy]

theorem wordAt_iff (words : List (List Char)) (hw : ∀ w ∈ words, LowerWord w)
    (prev : Option Char) (s : List Char) :
    wordAt words prev s = true ↔
      ∃ w ∈ words, ∃ mid post, s = mid ++ post ∧ mid.map Char.toLower = w ∧
        (∀ c, prev = some c → isWordChar c = false) ∧
        (∀ c, post.head? = some c → isWordChar c = false) := by
  unfold wordAt
  rw [Bool.and_eq_true, List.any_eq_true]
  constructor
  · rintro ⟨hb, w, hwm, hmatch⟩
    cases hml : matchLiteral w prev s with
    | none => simp [hml] at hmatch
    | some lr =>
      obtain ⟨last, rest⟩ := lr
      simp only [hml] at hmatch
      obtain ⟨mid, hs, hmap, hlast⟩ := (matchLiteral_eq_some w prev s last rest).mp hml
      have hall := mid_all_word hmap (hw w hwm).2
      cases mid with
      | nil => exact absurd hmap.symm (by simpa using (hw w hwm).1)
      | cons c mid =>
        refine ⟨w, hwm, c :: mid, rest, hs, hmap, ?_, ?_⟩
        · rw [hs] at hb
          exact (wordBoundary_head_word prev c _ (hall c (by simp))).mp hb
        · have hne : (c :: mid) ≠ [] := by simp
          have hl : (c :: mid).getLast? = some ((c :: mid).getLast hne) :=
            List.getLast?_eq_getLast _ hne
          rw [hl] at hlast
          simp only [Option.or] at hlast
          subst hlast
          exact (wordBoundary_prev_word _ rest (hall _ (List.getLast_mem hne))).mp hmatch
  · rintro ⟨w, hwm, mid, post, hs, hmap, hprev, hpost⟩
    have hall := mid_all_word hmap (hw w hwm).2
    cases mid with
    | nil => exact absurd hmap.symm (by simpa using (hw w hwm).1)
    | cons c mid =>
      have hne : (c :: mid) ≠ [] := by simp
      refine ⟨?_, w, hwm, ?_⟩
      · rw [hs]
        exact (wordBoundary_head_word prev c _ (hall c (by simp))).mpr hprev
      · have hml : matchLiteral w prev s =
            some (some ((c :: mid).getLast hne), post) := by
          rw [matchLiteral_eq_some]
          refine ⟨c :: mid, hs, hmap, ?_⟩
          rw [List.getLast?_eq_getLast _ hne]
          simp [Option.or]
        simp only [hml]
        exact (wordBoundary_prev_word _ post (hall _ (List.getLast_mem hne))).mpr hpost

theorem testWords_iff (words : List (List Char)) (hw : ∀ w ∈ words, LowerWord w)
    (prev : Option Char) (s : List Char) :
    testWords words prev s = true ↔ ∃ w ∈ words, WholeWordAfter prev w s := by
  induction s generalizing prev with
  | nil =>
    simp only [testWords]
    rw [wordAt_iff words hw]
    constructor
    · rintro ⟨w, hwm, mid, post, hs, hmap, hprev, hpost⟩
      exact ⟨w, hwm, [], mid, post, by simpa using hs, hmap, by simpa [Option.or] using hprev, hpost⟩
    · rintro ⟨w, hwm, pre, mid, post, hs, hmap, hprev, hpost⟩
      have hs2 := hs.symm
      simp only [List.append_eq_nil] at hs2
      obtain ⟨⟨rfl, rfl⟩, rfl⟩ := hs2
      exact absurd hmap.symm (by simpa using (hw w hwm).1)
  | cons c cs ih =>
    simp only [testWords, Bool.or_eq_true]
    rw [wordAt_iff words hw, ih]
    constructor
    · rintro (⟨w, hwm, mid, post, hs, hmap, hprev, hpost⟩ | ⟨w, hwm, pre, mid, post, hs, hmap, hprev, hpost⟩)
      · exact ⟨w, hwm, [], mid, post, by simpa using hs, hmap, by simpa [Option.or] using hprev, hpost⟩
      · refine ⟨w, hwm, c :: pre, mid, post, by simp [hs], hmap, ?_, hpost⟩
        rw [getLast?_cons_or]; exact hprev
    · rintro ⟨w, hwm, pre, mid, post, hs, hmap, hprev, hpost⟩
      cases pre with
      | nil =>
        left
        exact ⟨w, hwm, mid, post, by simpa using hs, hmap, by simpa [Option.or] using hprev, hpost⟩
      | cons c2 pre =>
        right
        simp only [List.cons_append, List.cons.injEq] at hs
        obtain ⟨rfl, hs⟩ := hs
        refine ⟨w, hwm, pre, mid, post, hs, hmap, ?_, hpost⟩
        rw [getLast?_cons_or] at hprev; exact hprev

theorem wholeWordAfter_none (w s : List Char) : WholeWordAfter none w s ↔ WholeWordIn w s := by
  unfold WholeWordAfter WholeWordIn
  simp only [Option.or_none]

theorem trimList_decomp (s : List Char) :
    ∃ lead trail, s = lead ++ trimList s ++ trail ∧
      (∀ c ∈ lead, isJsSpace c = true) ∧ (∀ c ∈ trail, isJsSpace c = true) := by
  refine ⟨s.takeWhile isJsSpace,
    (((s.dropWhile isJsSpace).reverse).takeWhile isJsSpace).reverse, ?_, ?_, ?_⟩
  · unfold trimList
    rw [List.append_assoc, ← List.reverse_append, List.takeWhile_append_dropWhile,
      List.reverse_reverse, List.takeWhile_append_dropWhile]
  · intro c hc
    exact List.mem_takeWhile_imp hc
  · intro c hc
    exact List.mem_takeWhile_imp (List.mem_reverse.mp hc)

theorem wholeWord_cons_space (w : List Char) (hw : LowerWord w) (c : Char)
    (hc : isJsSpace c = true) (s : List Char) :
    WholeWordIn w (c :: s) ↔ WholeWordIn w s := by
  constructor
  · rintro ⟨pre, mid, post, hs, hmap, hpre, hpost⟩
    have hall := mid_all_word hmap hw.2
    cases pre with
    | nil =>
      cases mid with
      | nil => exact absurd hmap.symm (by simpa using hw.1)
      | cons m mid =>
        simp only [List.nil_append, List.cons_append, List.cons.injEq] at hs
        obtain ⟨rfl, _⟩ := hs
        have := hall c (by simp)
        rw [space_not_word c hc] at this
        cases this
    | cons p pre =>
      simp only [List.cons_append, List.cons.injEq] at hs
      obtain ⟨rfl, hs⟩ := hs
      refine ⟨pre, mid, post, hs, hmap, ?_, hpost⟩
      intro x hx
      apply hpre x
      cases pre with
      | nil => simp at hx
      | cons q pre => rw [List.getLast?_cons_cons]; exact hx
  · rintro ⟨pre, mid, post, hs, hmap, hpre, hpost⟩
    refine ⟨c :: pre, mid, post, by simp [hs], hmap, ?_, hpost⟩
    intro x hx
    cases pre with
    | nil =>
      simp at hx
      subst hx
      exact space_not_word c hc
    | cons q pre =>
      rw [List.getLast?_cons_cons] at hx
      exact hpre x hx

theorem wholeWord_append_space (w : List Char) (hw : LowerWord w) (c : Char)
    (hc : isJsSpace c = true) (s : List Char) :
    WholeWordIn w (s ++ [c]) ↔ WholeWordIn w s := by
  constructor
  · rintro ⟨pre, mid, post, hs, hmap, hpre, hpost⟩
    have hall := mid_all_word hmap hw.2
    rcases List.eq_nil_or_concat post with rfl | ⟨post1, x, rfl⟩
    · rcases List.eq_nil_or_concat mid with rfl | ⟨mid1, m, rfl⟩
      · exact absurd hmap.symm (by simpa using hw.1)
      · simp only [List.concat_eq_append] at hs hall
        rw [List.append_nil, ← List.append_assoc] at hs
        have h2 := List.append_inj' hs rfl
        have hcm : c = m := by simpa using h2.2
        have := hall m (by simp)
        rw [← hcm, space_not_word c hc] at this
        cases this
    · simp only [List.concat_eq_append] at hs hpost
      rw [← List.append_assoc] at hs
      have h2 := List.append_inj' hs rfl
      refine ⟨pre, mid, post1, h2.1, hmap, hpre, ?_⟩
      intro y hy
      apply hpost y
      cases post1 with
      | nil => simp at hy
      | cons q post1 => simpa using hy
  · rintro ⟨pre, mid, post, hs, hmap, hpre, hpost⟩
    refine ⟨pre, mid, post ++ [c], by simp [hs], hmap, hpre, ?_⟩
    intro y hy
    cases post with
    | nil =>
      simp at hy
      subst hy
      exact space_not_word c hc
    | cons q post =>
      apply hpost y
      simpa using hy

theorem wholeWord_lead (w : List Char) (hw : LowerWord w) (lead s : List Char)
    (hl : ∀ c ∈ lead, isJsSpace c = true) :
    WholeWordIn w (lead ++ s) ↔ WholeWordIn w s := by
  induction lead with
  | nil => simp
  | cons c lead ih =>
    rw [List.cons_append, wholeWord_cons_space w hw c (hl c (by simp))]
    exact ih (fun x hx => hl x (by simp [hx]))

theorem wholeWord_trail (w : List Char) (hw : LowerWord w) (trail s : List Char)
    (hl : ∀ c ∈ trail, isJsSpace c = true) :
    WholeWordIn w (s ++ trail) ↔ WholeWordIn w s := by
  induction trail generalizing s with
  | nil => simp
  | cons c trail ih =>
    have : s ++ c :: trail = (s ++ [c]) ++ trail := by simp
    rw [this, ih (s ++ [c]) (fun x hx => hl x (by simp [hx])),
      wholeWord_append_space w hw c (hl c (by simp))]

theorem wholeWord_trim (w : List Char) (hw : LowerWord w) (s : List Char) :
    WholeWordIn w (trimList s) ↔ WholeWordIn w s := by
  obtain ⟨lead, trail, hs, hlead, htrail⟩ := trimList_decomp s
  conv_rhs => rw [hs]
  rw [wholeWord_trail w hw trail _ htrail, wholeWord_lead w hw lead _ hlead]

theorem approveWords_lower : ∀ w ∈ approveWords, LowerWord w := by
  intro w hw
  simp only [approveWords, List.mem_cons, List.mem_singleton, List.not_mem_nil, or_false] at hw
  rcases hw with rfl | rfl | rfl <;> exact ⟨by decide, by decide⟩

theorem rejectWords_lower : ∀ w ∈ rejectWords, LowerWord w := by
  intro w hw
  simp only [rejectWords, List.mem_cons, List.mem_singleton, List.not_mem_nil, or_false] at hw
  rcases hw with rfl | rfl | rfl <;> exact ⟨by decide, by decide⟩

theorem testWords_trim_iff (words : List (List Char)) (hw : ∀ w ∈ words, LowerWord w)
    (s : List Char) : testWords words none (trimList s) = true ↔ HasWordOf words s := by
  rw [testWords_iff words hw]
  unfold HasWordOf
  constructor
  · rintro ⟨w, hwm, h⟩
    exact ⟨w, hwm, (wholeWord_trim w (hw w hwm) s).mp ((wholeWordAfter_none w _).mp h)⟩
  · rintro ⟨w, hwm, h⟩
    exact ⟨w, hwm, (wholeWordAfter_none w _).mpr ((wholeWord_trim w (hw w hwm) s).mpr h)⟩

/-- C3: for a message on which the edit pattern does not match, the decision is `approve`
exactly when the lower-cased message contains one of the whole words yes, approve,
crystallize and none of no, reject, skip; it is `reject` exactly in the mirrored case; it
is `none` exactly when both kinds or neither kind occur; and no `editText` is returned.
The function is a total Lean function, so it is defined and single-valued on every input. -/
theorem detectApprovalDecision_words (toLowerCase : String → String)
    (messageText : Option String)
    (hNoEdit : editMatch none (jsTrim (toLowerCase (messageText.getD ""))).data = none) :
    ((detectApprovalDecision toLowerCase messageText).decision = Decision.approve ↔
      HasWordOf approveWords (toLowerCase (messageText.getD "")).data ∧
        ¬ HasWordOf rejectWords (toLowerCase (messageText.getD "")).data) ∧
    ((detectApprovalDecision toLowerCase messageText).decision = Decision.reject ↔
      HasWordOf rejectWords (toLowerCase (messageText.getD "")).data ∧
        ¬ HasWordOf approveWords (toLowerCase (messageText.getD "")).data) ∧
    ((detectApprovalDecision toLowerCase messageText).decision = Decision.none ↔
      (HasWordOf approveWords (toLowerCase (messageText.getD "")).data ↔
        HasWordOf rejectWords (toLowerCase (messageText.getD "")).data)) ∧
    (detectApprovalDecision toLowerCase messageText).editText = none := by
  have hA := testWords_trim_iff approveWords approveWords_lower
    (toLowerCase (messageText.getD "")).data
  have hR := testWords_trim_iff rejectWords rejectWords_lower
    (toLowerCase (messageText.getD "")).data
  have hdata : (jsTrim (toLowerCase (messageText.getD ""))).data =
      trimList (toLowerCase (messageText.getD "")).data := rfl
  rw [hdata] at hNoEdit
  unfold detectApprovalDecision
  simp only [hdata, hNoEdit]
  by_cases hEmpty : jsTrim (toLowerCase (messageText.getD "")) = ""
  · have hnil : trimList (toLowerCase (messageText.getD "")).data = [] := by
      rw [← hdata, hEmpty]
    have hA2 : ¬ HasWordOf approveWords (toLowerCase (messageText.getD "")).data := by
      rw [← hA, hnil]; decide
    have hR2 : ¬ HasWordOf rejectWords (toLowerCase (messageText.getD "")).data := by
      rw [← hR, hnil]; decide
    simp [hEmpty, hA2, hR2]
  · rw [if_neg hEmpty]
    cases ha : testWords approveWords none (trimList (toLowerCase (messageText.getD "")).data) <;>
    cases hr : testWords rejectWords none (trimList (toLowerCase (messageText.getD "")).data) <;>
    simp [ha, hr] at hA hR <;> simp [hA, hR]

/-- The four decisions of the specification's examples, and the theorem at the first. -/
theorem detectApprovalDecision_words_witness :
    editMatch none (jsTrim (asciiLowerCase ((some "yes crystallize this").getD ""))).data = none ∧
    (HasWordOf approveWords (asciiLowerCase "yes crystallize this").data ∧
      ¬ HasWordOf rejectWords (asciiLowerCase "yes crystallize this").data) ∧
    detectApprovalDecision asciiLowerCase (some "yes crystallize this")
      = { decision := Decision.approve } ∧
    detectApprovalDecision asciiLowerCase (some "reject this")
      = { decision := Decision.reject } ∧
    detectApprovalDecision asciiLowerCase (some "yes but also no")
      = { decision := Decision.none } ∧
    detectApprovalDecision asciiLowerCase (some "") = { decision := Decision.none } :=
  ⟨by decide,
   (detectApprovalDecision_words asciiLowerCase (some "yes crystallize this")
      (by decide)).1.mp (by decide),
   by decide, by decide, by decide, by decide⟩

/-! ## Decision parser: the edit rule -/

theorem spacesThenColon_append (ws rest : List Char) (hws : ∀ c ∈ ws, isJsSpace c = true) :
    spacesThenColon (ws ++ ':' :: rest) = some rest := by
  induction ws with
  | nil =>
    have h : isJsSpace ':' = false := by decide
    simp [spacesThenColon, h]
  | cons c ws ih =>
    simp only [List.cons_append, spacesThenColon, hws c (by simp), if_true]
    exact ih (fun x hx => hws x (by simp [hx]))

theorem dotPlusToEnd_some (body : List Char) (hb : body ≠ [])
    (hlt : ∀ c ∈ body, isLineTerminator c = false) : dotPlusToEnd body = some body := by
  unfold dotPlusToEnd
  rw [if_pos]
  refine ⟨hb, ?_⟩
  rw [List.all_eq_true]
  intro c hc
  simp [hlt c hc]

theorem spacesThenCapture_isSome (ws body : List Char) (hws : ∀ c ∈ ws, isJsSpace c = true)
    (hb : body ≠ []) (hlt : ∀ c ∈ body, isLineTerminator c = false) :
    (spacesThenCapture (ws ++ body)).isSome = true := by
  induction ws with
  | nil =>
    cases body with
    | nil => exact absurd rfl hb
    | cons c cs =>
      simp only [List.nil_append, spacesThenCapture]
      split
      · split
        · rfl
        · rw [dotPlusToEnd_some _ hb hlt]; rfl
      · rw [dotPlusToEnd_some _ hb hlt]; rfl
  | cons c ws ih =>
    have ih2 := ih (fun x hx => hws x (by simp [hx]))
    simp only [List.cons_append, spacesThenCapture, hws c (by simp), if_true]
    cases h : spacesThenCapture (ws ++ body) with
    | none => simp [h] at ih2
    | some cap => rfl

theorem editAt_isSome (prev : Option Char) (kw ws1 ws2 body : List Char)
    (hkw : kw.map Char.toLower = "edit".data)
    (hprev : ∀ c, prev = some c → isWordChar c = false)
    (h1 : ∀ c ∈ ws1, isJsSpace c = true) (h2 : ∀ c ∈ ws2, isJsSpace c = true)
    (hb : body ≠ []) (hlt : ∀ c ∈ body, isLineTerminator c = false) :
    (editAt prev (kw ++ ws1 ++ [':'] ++ ws2 ++ body)).isSome = true := by
  have hall := mid_all_word hkw (by decide)
  cases kw with
  | nil => simp at hkw
  | cons k kw =>
    have hml : matchLiteral "edit".data prev (k :: kw ++ ws1 ++ [':'] ++ ws2 ++ body) =
        some ((k :: kw).getLast?.or prev, ws1 ++ ':' :: (ws2 ++ body)) := by
      rw [matchLiteral_eq_some]
      exact ⟨k :: kw, by simp, hkw, rfl⟩
    have hb1 : wordBoundary prev (k :: kw ++ ws1 ++ [':'] ++ ws2 ++ body) = true := by
      simp only [List.cons_append]
      exact (wordBoundary_head_word prev k _ (hall k (by simp))).mpr hprev
    unfold editAt
    rw [if_pos hb1]
    simp only [hml, spacesThenColon_append ws1 _ h1]
    exact spacesThenCapture_isSome ws2 body h2 hb hlt

theorem editMatch_isSome (prev : Option Char) (pre kw ws1 ws2 body : List Char)
    (hkw : kw.map Char.toLower = "edit".data)
    (hprev : ∀ c, pre.getLast?.or prev = some c → isWordChar c = false)
    (h1 : ∀ c ∈ ws1, isJsSpace c = true) (h2 : ∀ c ∈ ws2, isJsSpace c = true)
    (hb : body ≠ []) (hlt : ∀ c ∈ body, isLineTerminator c = false) :
    (editMatch prev (pre ++ kw ++ ws1 ++ [':'] ++ ws2 ++ body)).isSome = true := by
  induction pre generalizing prev with
  | nil =>
    have hat := editAt_isSome prev kw ws1 ws2 body hkw (by simpa [Option.or] using hprev)
      h1 h2 hb hlt
    cases kw with
    | nil => simp at hkw
    | cons k kw =>
      simp only [List.nil_append, List.cons_append] at hat ⊢
      generalize kw ++ ws1 ++ [':'] ++ ws2 ++ body = rest at hat
      cases h : editAt prev (k :: rest) with
      | none => rw [h] at hat; cases hat
      | some cap => simp [editMatch, h]
  | cons c pre ih =>
    simp only [List.cons_append, editMatch]
    split
    · rfl
    · apply ih
      rw [getLast?_cons_or] at hprev
      exact hprev

/-- C4, as the code has it: when the normalised message holds `edit` at a word boundary,
optional white space, a colon, optional white space and a non-empty free text without line
terminator running to the end, the decision is `edit`, whatever approve or reject words
the message contains. -/
theorem edit_rule_has_priority (toLowerCase : String → String) (messageText : Option String)
    (hShape : EditShapeOneLine (jsTrim (toLowerCase (messageText.getD ""))).data) :
    (detectApprovalDecision toLowerCase messageText).decision = Decision.edit := by
  obtain ⟨pre, kw, ws1, ws2, body, htext, hkw, hpre, h1, h2, hb, hlt⟩ := hShape
  have hsome := editMatch_isSome none pre kw ws1 ws2 body hkw
    (by simpa [Option.or_none] using hpre) h1 h2 hb hlt
  rw [← htext] at hsome
  have hne : jsTrim (toLowerCase (messageText.getD "")) ≠ "" := by
    intro h
    rw [h] at hsome
    revert hsome
    decide
  unfold detectApprovalDecision
  simp only [if_neg hne]
  cases h : editMatch none (jsTrim (toLowerCase (messageText.getD ""))).data with
  | none => simp [h] at hsome
  | some cap => rfl

/-- An edit message that also holds an approve word and two reject words. -/
theorem edit_rule_has_priority_witness :
    EditShapeOneLine
      (jsTrim (asciiLowerCase ((some "Yes, EDIT : no more skipping  ").getD ""))).data ∧
    testWords approveWords none (jsTrim (asciiLowerCase "Yes, EDIT : no more skipping  ")).data
      = true ∧
    testWords rejectWords none (jsTrim (asciiLowerCase "Yes, EDIT : no more skipping  ")).data
      = true ∧
    (detectApprovalDecision asciiLowerCase (some "Yes, EDIT : no more skipping  ")).decision
      = Decision.edit :=
  have hShape : EditShapeOneLine
      (jsTrim (asciiLowerCase ((some "Yes, EDIT : no more skipping  ").getD ""))).data :=
    ⟨"yes, ".data, "edit".data, " ".data, " ".data, "no more skipping".data,
      by decide, by decide, by decide, by decide, by decide, by decide, by decide⟩
  ⟨hShape, by decide, by decide, edit_rule_has_priority asciiLowerCase _ hShape⟩

/-- C4 as stated fails: a free text with a line break after `edit:` has the claimed shape,
and the decision is `approve`. -/
theorem edit_rule_misses_multiline :
    EditShape (jsTrim (asciiLowerCase "edit: yes\nplease")).data ∧
    detectApprovalDecision asciiLowerCase (some "edit: yes\nplease")
      = { decision := Decision.approve } :=
  ⟨⟨[], "edit".data, [], " ".data, "yes\nplease".data,
      by decide, by decide, by decide, by decide, by decide, by decide⟩,
   by decide⟩

/-- C5 at `edit: Tighten The Wording`: the returned `editText` is the lower-cased text,
not the text of the message. -/
theorem editText_is_lower_cased :
    detectApprovalDecision asciiLowerCase (some "edit: Tighten The Wording")
      = { decision := Decision.edit, editText := some "tighten the wording" } ∧
    (detectApprovalDecision asciiLowerCase (some "edit: Tighten The Wording")).editText
      ≠ some "Tighten The Wording" :=
  ⟨by decide, by decide⟩

/-! ## Principle aggregator -/

/-- C6 at two results with the principles `2` then `1`, one occurrence each: the function
answers `1`, the key that `Object.entries` lists first, while the first-seen principle of
maximal count is `2`. -/
theorem chooseDominantPrinciple_numeric_tie :
    chooseDominantPrinciple
      [{ vectorId := some "v1", principle := "2" }, { vectorId := some "v2", principle := "1" }]
      = some "1" ∧
    FirstSeenDominant
      [{ vectorId := some "v1", principle := "2" }, { vectorId := some "v2", principle := "1" }]
      "2" ∧
    ¬ FirstSeenDominant
      [{ vectorId := some "v1", principle := "2" }, { vectorId := some "v2", principle := "1" }]
      "1" := by
  refine ⟨by decide, ?_, ?_⟩
  · unfold FirstSeenDominant; decide
  · unfold FirstSeenDominant; decide

/-! ## Approval state machine -/

/-- C7 at two pending vectors proposed at the epoch instant and one second before: the
maximal timestamp is `0`, the test `!latestTimestamp` holds, and both vectors are returned
although the second was not proposed at the maximal timestamp. -/
theorem latestPendingGroup_epoch :
    epochVectors.map (proposedMs isoDateParse) = [some 0, some (-1000)] ∧
    latestPendingGroup isoDateParse epochVectors = epochVectors ∧
    epochVectors.filter (fun v => proposedMs isoDateParse v == some 0) ≠ epochVectors := by
  refine ⟨by decide, by decide, by decide⟩

theorem latestPendingGroup_subset (dateParse : String → Option Int) (vectors : List Vector) :
    ∀ v ∈ latestPendingGroup dateParse vectors,
      v ∈ vectors ∧ statusOf v = some "pending_review" := by
  intro v hv
  have hp : ∀ x ∈ vectors.filter (fun v => statusOf v == some "pending_review"),
      x ∈ vectors ∧ statusOf x = some "pending_review" := by
    intro x hx
    rw [List.mem_filter] at hx
    exact ⟨hx.1, by simpa using hx.2⟩
  unfold latestPendingGroup at hv
  simp only at hv
  split at hv
  · simp at hv
  · split at hv
    · exact hp v hv
    · split at hv
      · exact hp v hv
      · exact hp v (List.mem_filter.mp hv).1

theorem applyDecision_keeps_fields (decision : Decision) (editText : Option String)
    (nowIso traitId : String) (vector : Vector) :
    { applyDecision decision editText nowIso traitId vector with
        crystallization := vector.crystallization } = vector := by
  cases decision <;> rfl

/-- The vector collection written by `onAgentEnd`: the old one, or the old one updated at
the ids of the latest pending group. -/
theorem onAgentEnd_vectors_cases (toLowerCase : String → String)
    (dateParse : String → Option Int) (config : Config) (clock : Clock) (context : Context)
    (store : Store) :
    (onAgentEnd toLowerCase dateParse config clock context store).vectors = store.vectors ∨
    ∃ decision editText traitId,
      (onAgentEnd toLowerCase dateParse config clock context store).vectors =
        updateVectors ((latestPendingGroup dateParse store.vectors).map (fun v => v.id))
          decision editText clock.nowIso traitId store.vectors := by
  unfold onAgentEnd
  split
  · left; rfl
  · simp only
    split
    · left; rfl
    · split
      · left; rfl
      · rename_i first others hg
        rw [hg]
        split
        · right; exact ⟨_, _, _, rfl⟩
        · right; exact ⟨_, _, _, rfl⟩
        · right; exact ⟨_, _, _, rfl⟩
        · left; rfl

/-- The frame of `onAgentEnd`, measured against the group that `latestPendingGroup`
returns: with pairwise distinct ids, `onAgentEnd` writes a vector collection of the same
length and order; a vector outside that group is written back identical; every vector is
written back with all fields other than `crystallization` as they were; and the group
holds `pending_review` vectors only, so that approved or rejected vectors are outside it.
Which pending vectors the group holds is the matter of `latestPendingGroup_of_max`. -/
theorem onAgentEnd_frame (toLowerCase : String → String) (dateParse : String → Option Int)
    (config : Config) (clock : Clock) (context : Context) (store : Store)
    (hIds : (store.vectors.map (fun v => v.id)).Nodup) :
    (onAgentEnd toLowerCase dateParse config clock context store).vectors.length
      = store.vectors.length ∧
    List.Forall₂ (fun old new =>
        (old ∉ latestPendingGroup dateParse store.vectors → new = old) ∧
        { new with crystallization := old.crystallization } = old)
      store.vectors (onAgentEnd toLowerCase dateParse config clock context store).vectors ∧
    (∀ v ∈ store.vectors, statusOf v ≠ some "pending_review" →
      v ∉ latestPendingGroup dateParse store.vectors) := by
  have hF : List.Forall₂ (fun old new =>
        (old ∉ latestPendingGroup dateParse store.vectors → new = old) ∧
        { new with crystallization := old.crystallization } = old)
      store.vectors (onAgentEnd toLowerCase dateParse config clock context store).vectors := by
    rcases onAgentEnd_vectors_cases toLowerCase dateParse config clock context store with
      h | ⟨decision, editText, traitId, h⟩
    · rw [h, List.forall₂_same]
      intro x _
      exact ⟨fun _ => rfl, rfl⟩
    · rw [h]
      unfold updateVectors
      rw [List.forall₂_map_right_iff, List.forall₂_same]
      intro x hx
      constructor
      · intro hnot
        have hid : x.id ∉ (latestPendingGroup dateParse store.vectors).map (fun v => v.id) := by
          intro hmem
          obtain ⟨g, hg, hgid⟩ := List.mem_map.mp hmem
          have hgv := (latestPendingGroup_subset dateParse store.vectors g hg).1
          have := List.inj_on_of_nodup_map hIds hgv hx hgid
          exact hnot (this ▸ hg)
        simp [hid]
      · by_cases hid : x.id ∈ (latestPendingGroup dateParse store.vectors).map (fun v => v.id)
        · have hc : ((latestPendingGroup dateParse store.vectors).map (fun v => v.id)).contains
              x.id = true := by simpa using hid
          simp only [hc, Bool.not_true, Bool.false_eq_true, if_false]
          exact applyDecision_keeps_fields _ _ _ _ x
        · have hc : ((latestPendingGroup dateParse store.vectors).map (fun v => v.id)).contains
              x.id = false := by simpa using hid
          simp only [hc, Bool.not_false, if_true]
  refine ⟨hF.length_eq.symm, hF, ?_⟩
  intro v _ hs hmem
  exact hs (latestPendingGroup_subset dateParse store.vectors v hmem).2

/-- The later group of the two-group store is approved; `a`, `c` and `e` stay as they were. -/
theorem onAgentEnd_frame_witness :
    (twoGroupStore.vectors.map (fun v => v.id)).Nodup ∧
    (latestPendingGroup isoDateParse twoGroupStore.vectors).map (fun v => v.id)
      = [some "b", some "d"] ∧
    (onAgentEnd asciiLowerCase isoDateParse liveConfig febClock
        { lastUserMessage := some "yes crystallize this" } twoGroupStore).vectors.map statusOf
      = [some "pending_review", some "approved", some "approved", some "approved",
         some "rejected_crystallization"] ∧
    List.Forall₂ (fun old new =>
        (old ∉ latestPendingGroup isoDateParse twoGroupStore.vectors → new = old) ∧
        { new with crystallization := old.crystallization } = old)
      twoGroupStore.vectors
      (onAgentEnd asciiLowerCase isoDateParse liveConfig febClock
        { lastUserMessage := some "yes crystallize this" } twoGroupStore).vectors :=
  ⟨by decide, by decide, by decide,
   (onAgentEnd_frame asciiLowerCase isoDateParse liveConfig febClock
      { lastUserMessage := some "yes crystallize this" } twoGroupStore (by decide)).2.1⟩

/-- C8 at a latest proposal made at 1970-01-01T00:00:00.000Z: the store holds two pending
vectors with distinct ids, `a` proposed at that instant and `b` proposed one second
earlier, so that `a` alone has the greatest `proposedAt` and `b` is the earlier group.
The message `yes` is an approval, and `onAgentEnd` writes both vectors back as `approved`
with the trait id of the one new trait, whose sources are `a` and `b`: the vector `b` of
the earlier group does not stay `pending_review`. -/
theorem approve_at_epoch_alters_earlier_group :
    (epochStore.vectors.map (fun v => v.id)).Nodup ∧
    epochStore.vectors.map (fun v => (v.id, statusOf v, proposedMs isoDateParse v))
      = [ (some "a", some "pending_review", some 0),
          (some "b", some "pending_review", some (-1000)) ] ∧
    (detectApprovalDecision asciiLowerCase (some (extractLastMessageText asciiLowerCase
      { lastUserMessage := some "yes" }))).decision = Decision.approve ∧
    (onAgentEnd asciiLowerCase isoDateParse liveConfig febClock
        { lastUserMessage := some "yes" } epochStore).vectors.map
        (fun v => (v.id, statusOf v, v.crystallization.bind fun c => c.traitId))
      = [ (some "a", some "approved", some "trait_1769904000001"),
          (some "b", some "approved", some "trait_1769904000001") ] ∧
    (onAgentEnd asciiLowerCase isoDateParse liveConfig febClock
        { lastUserMessage := some "yes" } epochStore).traits.map
        (fun t => (t.id, t.text, t.demonstratedCount, t.sources))
      = [ ("trait_1769904000001", "I keep my promises", 2, [some "a", some "b"]) ] ∧
    (onAgentEnd asciiLowerCase isoDateParse liveConfig febClock
        { lastUserMessage := some "yes" } epochStore).vectors.get? 1
      ≠ epochStore.vectors.get? 1 := by
  refine ⟨by decide, by decide, by decide, by decide, by decide, by decide⟩

/-- C9, as the code has it: an approve decision on a non-empty latest pending group appends
exactly one record to the trait collection; its `sources` are the ids of the group in store
order, its `demonstratedCount` is the size of the group, its text, principle and pattern
are those of the first vector of the group where present and non-empty and otherwise the
defaults `Trait crystallized`, `word`, `unknown`; every vector of the group ends with
status `approved` and that record's id as `traitId`. -/
theorem onAgentEnd_approve (toLowerCase : String → String) (dateParse : String → Option Int)
    (config : Config) (clock : Clock) (context : Context) (store : Store)
    (first : Vector) (others : List Vector)
    (hEnabled : config.enabled = true)
    (hDecision : (detectApprovalDecision toLowerCase
      (some (extractLastMessageText toLowerCase context))).decision = Decision.approve)
    (hGroup : latestPendingGroup dateParse store.vectors = first :: others) :
    ∃ record : Trait,
      (onAgentEnd toLowerCase dateParse config clock context store).traits
        = store.traits ++ [record] ∧
      record.sources = (first :: others).map (fun v => v.id) ∧
      record.demonstratedCount = (first :: others).length ∧
      record.text = orDefault (first.crystallization.getD {}).proposedTrait "Trait crystallized" ∧
      record.principle = orDefault (first.crystallization.getD {}).principle "word" ∧
      record.pattern = orDefault (first.crystallization.getD {}).pattern "unknown" ∧
      List.Forall₂ (fun old new =>
          old ∈ first :: others →
            statusOf new = some "approved" ∧
            (new.crystallization.bind (fun c => c.traitId)) = some record.id)
        store.vectors (onAgentEnd toLowerCase dateParse config clock context store).vectors := by
  refine ⟨buildTraitRecord clock.recordIso clock.recordMs
    (orDefault (first.crystallization.getD {}).proposedTrait "Trait crystallized")
    (orDefault (first.crystallization.getD {}).principle "word")
    (orDefault (first.crystallization.getD {}).pattern "unknown") (first :: others), ?_⟩
  have hout : onAgentEnd toLowerCase dateParse config clock context store =
      { vectors := updateVectors ((first :: others).map (fun v => v.id)) Decision.approve none
          clock.nowIso (buildTraitRecord clock.recordIso clock.recordMs
            (orDefault (first.crystallization.getD {}).proposedTrait "Trait crystallized")
            (orDefault (first.crystallization.getD {}).principle "word")
            (orDefault (first.crystallization.getD {}).pattern "unknown")
            (first :: others)).id store.vectors
        traits := store.traits ++ [buildTraitRecord clock.recordIso clock.recordMs
            (orDefault (first.crystallization.getD {}).proposedTrait "Trait crystallized")
            (orDefault (first.crystallization.getD {}).principle "word")
            (orDefault (first.crystallization.getD {}).pattern "unknown")
            (first :: others)] } := by
    unfold onAgentEnd
    simp [hEnabled, hDecision, hGroup]
  rw [hout]
  refine ⟨rfl, rfl, rfl, rfl, rfl, rfl, ?_⟩
  simp only
  unfold updateVectors
  rw [List.forall₂_map_right_iff, List.forall₂_same]
  intro x _ hmem
  have hc : ((first :: others).map (fun v => v.id)).contains x.id = true := by
    have hm : x.id ∈ (first :: others).map (fun v => v.id) := List.mem_map_of_mem _ hmem
    simpa using hm
  simp only [hc, Bool.not_true, Bool.false_eq_true, if_false]
  exact ⟨rfl, rfl⟩

/-- C10: when the parsed decision is `none`, or no vector has status `pending_review`,
`onAgentEnd` leaves both collections as they are, at every clock reading, and so does any
number of runs in a row. -/
theorem onAgentEnd_noop (toLowerCase : String → String) (dateParse : String → Option Int)
    (config : Config) (context : Context) (store : Store)
    (hNoop : (detectApprovalDecision toLowerCase
        (some (extractLastMessageText toLowerCase context))).decision = Decision.none ∨
      ∀ v ∈ store.vectors, statusOf v ≠ some "pending_review") :
    (∀ clock : Clock, onAgentEnd toLowerCase dateParse config clock context store = store) ∧
    ∀ clocks : List Clock,
      clocks.foldl (fun s clock => onAgentEnd toLowerCase dateParse config clock context s) store
        = store := by
  have hstep : ∀ clock : Clock,
      onAgentEnd toLowerCase dateParse config clock context store = store := by
    intro clock
    rcases hNoop with h | h
    · unfold onAgentEnd
      simp [h]
    · have hg : latestPendingGroup dateParse store.vectors = [] := by
        unfold latestPendingGroup
        have hf : store.vectors.filter (fun v => statusOf v == some "pending_review") = [] := by
          rw [List.filter_eq_nil_iff]
          intro v hv
          simpa using h v hv
        simp [hf]
      unfold onAgentEnd
      simp only [hg]
      split
      · rfl
      · split <;> rfl
  refine ⟨hstep, ?_⟩
  intro clocks
  induction clocks with
  | nil => rfl
  | cons c cs ih => rw [List.foldl_cons, hstep c]; exact ih

/-- Approval of the later group of the two-group store: one record, sources `b` and `d`. -/
theorem onAgentEnd_approve_witness :
    liveConfig.enabled = true ∧
    (detectApprovalDecision asciiLowerCase (some (extractLastMessageText asciiLowerCase
      { lastUserMessage := some "Approve" }))).decision = Decision.approve ∧
    (onAgentEnd asciiLowerCase isoDateParse liveConfig febClock { lastUserMessage := some "Approve" }
      twoGroupStore).traits =
      [ { id := "trait_1769904000001", text := "I speak up", principle := "courage",
          pattern := "candour", demonstratedCount := 2, sources := [some "b", some "d"],
          crystallizedAt := "2026-02-01T00:00:00.001Z", approvedBy := "chris" } ] ∧
    ∃ record : Trait,
      (onAgentEnd asciiLowerCase isoDateParse liveConfig febClock { lastUserMessage := some "Approve" }
        twoGroupStore).traits = twoGroupStore.traits ++ [record] ∧
      record.sources = [some "b", some "d"] ∧ record.demonstratedCount = 2 :=
  ⟨rfl, by decide, by decide,
   match onAgentEnd_approve asciiLowerCase isoDateParse liveConfig febClock
      { lastUserMessage := some "Approve" } twoGroupStore
      { id := some "b", text := some "spoke up",
        crystallization := some
          { status := some "pending_review", proposedTrait := some "I speak up",
            principle := some "courage", pattern := some "candour",
            proposedAt := some "2026-01-02T00:00:00.000Z" } }
      [ { id := some "d", text := some "asked the hard question",
          crystallization := some
            { status := some "pending_review", proposedTrait := some "I speak up",
              principle := some "courage", pattern := some "candour",
              proposedAt := some "2026-01-02T00:00:00.000Z" } } ]
      rfl (by decide) (by decide) with
   | ⟨record, h1, h2, h3, _⟩ => ⟨record, h1, h2, h3⟩⟩

/-- C9 as stated fails on the pending vector of the test store, which carries a status and
no proposal fields: the record gets the default text, principle and pattern. -/
theorem onAgentEnd_approve_defaults :
    (latestPendingGroup isoDateParse testVectors).map
        (fun v => (v.id, (v.crystallization.getD {}).proposedTrait,
          (v.crystallization.getD {}).principle, (v.crystallization.getD {}).pattern))
      = [(some "vec_pending", none, none, none)] ∧
    (onAgentEnd asciiLowerCase isoDateParse liveConfig febClock { lastUserMessage := some "yes" }
        { vectors := testVectors, traits := [] }).traits.map
        (fun t => (t.text, t.principle, t.pattern))
      = [("Trait crystallized", "word", "unknown")] := by
  refine ⟨by decide, by decide⟩

/-- A message without a decision leaves the two-group store as it is. -/
theorem onAgentEnd_noop_witness :
    (detectApprovalDecision asciiLowerCase (some (extractLastMessageText asciiLowerCase
      { messages := some [{ role := some "user", content := some "thanks, that helps" }] }))).decision
      = Decision.none ∧
    onAgentEnd asciiLowerCase isoDateParse liveConfig febClock
      { messages := some [{ role := some "user", content := some "thanks, that helps" }] }
      twoGroupStore = twoGroupStore ∧
    onAgentEnd asciiLowerCase isoDateParse liveConfig febClock { lastUserMessage := some "yes" }
      { vectors := [], traits := [] } = { vectors := [], traits := [] } :=
  ⟨by decide,
   (onAgentEnd_noop asciiLowerCase isoDateParse liveConfig
      { messages := some [{ role := some "user", content := some "thanks, that helps" }] }
      twoGroupStore (Or.inl (by decide))).1 febClock,
   by decide⟩

/-! ## Principle aggregator: principles that are not array indices -/

theorem bumpCount_of_not_mem (acc : List (String × Nat)) (k : String)
    (h : k ∉ acc.map Prod.fst) : bumpCount acc k = acc ++ [(k, 1)] := by
  induction acc with
  | nil => rfl
  | cons e acc ih =>
    obtain ⟨k1, n1⟩ := e
    simp only [List.map_cons, List.mem_cons, not_or] at h
    have h1 : ¬ k1 = k := fun h3 => h.1 h3.symm
    simp only [bumpCount, h1, if_false, List.cons_append, ih h.2]

theorem bumpCount_of_mem (acc : List (String × Nat)) (k : String)
    (hnd : (acc.map Prod.fst).Nodup) (h : k ∈ acc.map Prod.fst) :
    bumpCount acc k = acc.map (fun e => if e.1 = k then (e.1, e.2 + 1) else e) := by
  induction acc with
  | nil => simp at h
  | cons e acc ih =>
    obtain ⟨k1, n1⟩ := e
    simp only [List.map_cons, List.nodup_cons] at hnd
    by_cases h1 : k1 = k
    · subst h1
      simp only [bumpCount, if_true, List.map_cons]
      congr 1
      symm
      have hid : ∀ e ∈ acc,
          (fun e : String × Nat => if e.1 = k1 then (e.1, e.2 + 1) else e) e = id e := by
        intro e he
        have hne : e.1 ≠ k1 := fun h3 => hnd.1 (h3 ▸ List.mem_map_of_mem Prod.fst he)
        simp [hne]
      rw [List.map_congr_left hid, List.map_id]
    · simp only [List.map_cons, List.mem_cons] at h
      have h2 : k ∈ acc.map Prod.fst := by
        rcases h with h | h
        · exact absurd h.symm h1
        · exact h
      simp only [bumpCount, h1, if_false, List.map_cons, ih hnd.2 h2]


theorem countsOf_nil : CountsOf [] [] :=
  ⟨by simp, by simp, by simp, by simp⟩

theorem countsOf_step (pre : List String) (acc : List (String × Nat)) (k : String)
    (h : CountsOf pre acc) : CountsOf (pre ++ [k]) (bumpCount acc k) := by
  by_cases hk : k ∈ pre
  · have hk2 : k ∈ acc.map Prod.fst := (h.keys k).mpr hk
    rw [bumpCount_of_mem acc k h.nodup hk2]
    have hkeys : (acc.map (fun e : String × Nat => if e.1 = k then (e.1, e.2 + 1) else e)).map
        Prod.fst = acc.map Prod.fst := by
      rw [List.map_map]
      apply List.map_congr_left
      intro e _
      simp only [Function.comp]
      split <;> rfl
    refine ⟨by rw [hkeys]; exact h.nodup, ?_, ?_, ?_⟩
    · intro e he
      obtain ⟨e0, he0, rfl⟩ := List.mem_map.mp he
      have hc := h.count e0 he0
      by_cases h1 : e0.1 = k
      · simp only [h1, if_true, List.count_append, List.count_singleton_self]
        rw [← h1, hc]
      · have h2 : ¬ k = e0.1 := fun h3 => h1 h3.symm
        simp only [h1, if_false, List.count_append, hc, List.count_singleton, beq_iff_eq, h2,
          Nat.add_zero]
    · intro k2
      rw [hkeys, h.keys k2]
      simp only [List.mem_append, List.mem_singleton]
      constructor
      · exact Or.inl
      · rintro (h3 | rfl)
        · exact h3
        · exact hk
    · rw [hkeys]
      refine h.order.imp_of_mem ?_
      intro a b ha hb hab
      rw [List.indexOf_append_of_mem ((h.keys a).mp ha),
        List.indexOf_append_of_mem ((h.keys b).mp hb)]
      exact hab
  · have hk2 : k ∉ acc.map Prod.fst := fun h3 => hk ((h.keys k).mp h3)
    rw [bumpCount_of_not_mem acc k hk2]
    refine ⟨?_, ?_, ?_, ?_⟩
    · rw [List.map_append, List.nodup_append]
      refine ⟨h.nodup, by simp, ?_⟩
      intro a ha hb
      simp only [List.map_cons, List.map_nil, List.mem_singleton] at hb
      exact hk2 (hb ▸ ha)
    · intro e he
      rcases List.mem_append.mp he with he | he
      · have hmem : e.1 ∈ pre := (h.keys e.1).mp (List.mem_map_of_mem Prod.fst he)
        have h2 : ¬ k = e.1 := fun h3 => hk (h3 ▸ hmem)
        simp only [List.count_append, h.count e he, List.count_singleton, beq_iff_eq, h2,
          Nat.add_zero, if_false]
      · simp only [List.mem_singleton] at he
        subst he
        simp only [List.count_append, List.count_singleton_self]
        have : List.count k pre = 0 := List.count_eq_zero_of_not_mem hk
        omega
    · intro k2
      simp only [List.map_append, List.map_cons, List.map_nil, List.mem_append,
        List.mem_singleton, h.keys k2]
    · rw [List.map_append, List.pairwise_append]
      refine ⟨?_, by simp, ?_⟩
      · refine h.order.imp_of_mem ?_
        intro a b ha hb hab
        rw [List.indexOf_append_of_mem ((h.keys a).mp ha),
          List.indexOf_append_of_mem ((h.keys b).mp hb)]
        exact hab
      · intro a ha b hb
        simp only [List.map_cons, List.map_nil, List.mem_singleton] at hb
        subst hb
        have ha2 : a ∈ pre := (h.keys a).mp ha
        rw [List.indexOf_append_of_mem ha2, List.indexOf_append_of_not_mem hk]
        have := List.indexOf_lt_length.mpr ha2
        omega

theorem countsOf_foldl (ps : List String) :
    CountsOf ps (ps.foldl bumpCount []) := by
  induction ps using List.reverseRecOn with
  | nil => exact countsOf_nil
  | append_singleton pre k ih =>
    rw [List.foldl_append]
    exact countsOf_step pre _ k ih

theorem objectEntries_of_no_index (props : List (String × Nat))
    (h : ∀ e ∈ props, arrayIndex? e.1 = none) : objectEntries props = props := by
  unfold objectEntries
  have h1 : props.filter (fun e => (arrayIndex? e.1).isSome) = [] := by
    rw [List.filter_eq_nil_iff]
    intro e he
    simp [h e he]
  have h2 : props.filter (fun e => (arrayIndex? e.1).isNone) = props := by
    rw [List.filter_eq_self]
    intro e he
    simp [h e he]
  rw [h1, h2]
  rfl

/-- The head of a stable sort by falling count is the first entry of greatest count. -/
theorem head_insertionSort_count (l : List (String × Nat)) (h : String × Nat)
    (t : List (String × Nat))
    (hs : l.insertionSort (fun a b => b.2 ≤ a.2) = h :: t) :
    ∃ l1 l2, l = l1 ++ h :: l2 ∧ (∀ e ∈ l1, e.2 < h.2) ∧ (∀ e ∈ l2, e.2 ≤ h.2) := by
  induction l generalizing h t with
  | nil => simp at hs
  | cons b l ih =>
    rw [List.insertionSort] at hs
    cases hl : l.insertionSort (fun a b => b.2 ≤ a.2) with
    | nil =>
      have hperm := List.perm_insertionSort (fun a b : String × Nat => b.2 ≤ a.2) l
      rw [hl] at hperm
      have hnil : l = [] := hperm.symm.eq_nil
      subst hnil
      rw [hl] at hs
      simp only [List.orderedInsert, List.cons.injEq] at hs
      exact ⟨[], [], by simp [hs.1], by simp, by simp⟩
    | cons h1 t1 =>
      obtain ⟨l1, l2, hl12, hlt, hle⟩ := ih h1 t1 hl
      rw [hl] at hs
      simp only [List.orderedInsert] at hs
      split at hs
      · rename_i hr
        simp only [List.cons.injEq] at hs
        obtain ⟨rfl, _⟩ := hs
        refine ⟨[], l, rfl, by simp, ?_⟩
        intro e he
        rw [hl12] at he
        rcases List.mem_append.mp he with he | he
        · exact le_of_lt (lt_of_lt_of_le (hlt e he) hr)
        · rcases List.mem_cons.mp he with rfl | he
          · exact hr
          · exact le_trans (hle e he) hr
      · rename_i hr
        simp only [List.cons.injEq] at hs
        obtain ⟨rfl, _⟩ := hs
        refine ⟨b :: l1, l2, by simp [hl12], ?_, hle⟩
        intro e he
        rcases List.mem_cons.mp he with rfl | he
        · exact not_le.mp hr
        · exact hlt e he

/-- For principles that are neither array indices nor empty, `chooseDominantPrinciple`
answers `null` on the empty list and otherwise the first-seen principle of greatest count. -/
theorem chooseDominantPrinciple_first_seen (results : List AlignmentResult)
    (hKeys : ∀ r ∈ results, arrayIndex? r.principle = none ∧ r.principle ≠ "") :
    (results = [] → chooseDominantPrinciple results = none) ∧
    (results ≠ [] →
      ∃ p, chooseDominantPrinciple results = some p ∧ FirstSeenDominant results p) := by
  constructor
  · rintro rfl
    rfl
  · intro hne
    have hfold : results.foldl (fun acc item => bumpCount acc item.principle) [] =
        (results.map (fun r => r.principle)).foldl bumpCount [] := by
      rw [List.foldl_map]
    have hC := countsOf_foldl (results.map (fun r => r.principle))
    generalize hacc : (results.map (fun r => r.principle)).foldl bumpCount [] = acc at hC hfold
    have hnoidx : ∀ e ∈ acc, arrayIndex? e.1 = none := by
      intro e he
      have hk := (hC.keys e.1).mp (List.mem_map_of_mem Prod.fst he)
      obtain ⟨r, hr, hrp⟩ := List.mem_map.mp hk
      rw [← hrp]
      exact (hKeys r hr).1
    unfold chooseDominantPrinciple
    simp only [hfold, objectEntries_of_no_index acc hnoidx]
    cases hs : acc.insertionSort (fun a b => b.2 ≤ a.2) with
    | nil =>
      exfalso
      have hperm := List.perm_insertionSort (fun a b : String × Nat => b.2 ≤ a.2) acc
      rw [hs] at hperm
      have hnil : acc = [] := hperm.symm.eq_nil
      cases results with
      | nil => exact hne rfl
      | cons r rs =>
        have : r.principle ∈ acc.map Prod.fst := (hC.keys _).mpr (by simp)
        rw [hnil] at this
        simp at this
    | cons h t =>
      obtain ⟨l1, l2, hl, hlt, hle⟩ := head_insertionSort_count acc h t hs
      have hmem : h ∈ acc := by rw [hl]; simp
      have hp : h.1 ∈ results.map (fun r => r.principle) :=
        (hC.keys h.1).mp (List.mem_map_of_mem Prod.fst hmem)
      have hpne : h.1 ≠ "" := by
        obtain ⟨r, hr, hrp⟩ := List.mem_map.mp hp
        rw [← hrp]
        exact (hKeys r hr).2
      refine ⟨h.1, by simp [hpne], hp, ?_⟩
      intro q hq
      obtain ⟨e, he, heq⟩ := List.mem_map.mp ((hC.keys q).mpr hq)
      have hcq := hC.count e he
      have hcp := hC.count h hmem
      rw [heq] at hcq
      rw [← hcq, ← hcp]
      have hcases : e ∈ l1 ∨ e = h ∨ e ∈ l2 := by
        rw [hl] at he
        rcases List.mem_append.mp he with h1 | h1
        · exact Or.inl h1
        · rcases List.mem_cons.mp h1 with h2 | h2
          · exact Or.inr (Or.inl h2)
          · exact Or.inr (Or.inr h2)
      constructor
      · rcases hcases with h1 | rfl | h1
        · exact le_of_lt (hlt e h1)
        · exact le_refl _
        · exact hle e h1
      · intro hce
        rcases hcases with h1 | rfl | h1
        · exact absurd hce (ne_of_lt (hlt e h1))
        · rw [heq]
        · have hord := hC.order
          rw [hl, List.map_append, List.map_cons, List.pairwise_append] at hord
          have hpw := List.rel_of_pairwise_cons hord.2.1 (List.mem_map_of_mem Prod.fst h1)
          rw [heq] at hpw
          exact le_of_lt hpw

/-! ## Latest pending group: timestamps away from the epoch -/

theorem head_insertionSort_desc (l : List Int) (h : Int) (t : List Int)
    (hs : l.insertionSort (fun a b => b ≤ a) = h :: t) : h ∈ l ∧ ∀ x ∈ l, x ≤ h := by
  haveI : IsTotal Int (fun a b => b ≤ a) := ⟨fun a b => le_total b a⟩
  haveI : IsTrans Int (fun a b => b ≤ a) := ⟨fun _ _ _ hab hbc => le_trans hbc hab⟩
  have hperm := List.perm_insertionSort (fun a b : Int => b ≤ a) l
  have hsorted := List.sorted_insertionSort (fun a b : Int => b ≤ a) l
  rw [hs] at hperm hsorted
  refine ⟨hperm.subset (by simp), ?_⟩
  intro x hx
  have hx2 : x ∈ h :: t := hperm.symm.subset hx
  rcases List.mem_cons.mp hx2 with rfl | hxt
  · exact le_refl _
  · exact List.rel_of_sorted_cons hsorted x hxt

/-- The latest pending group away from the epoch instant: when no pending vector has a
timestamp the group is all pending vectors, and when the greatest timestamp `m` of the
pending vectors is not `0` the group is the pending vectors whose timestamp is `m`. -/
theorem latestPendingGroup_of_max (dateParse : String → Option Int) (vectors : List Vector) :
    ((∀ v ∈ vectors.filter (fun v => statusOf v == some "pending_review"),
        proposedMs dateParse v = none) →
      latestPendingGroup dateParse vectors
        = vectors.filter (fun v => statusOf v == some "pending_review")) ∧
    (∀ m : Int, m ≠ 0 →
      (∃ v ∈ vectors.filter (fun v => statusOf v == some "pending_review"),
        proposedMs dateParse v = some m) →
      (∀ v ∈ vectors.filter (fun v => statusOf v == some "pending_review"),
        ∀ t, proposedMs dateParse v = some t → t ≤ m) →
      latestPendingGroup dateParse vectors
        = (vectors.filter (fun v => statusOf v == some "pending_review")).filter
            (fun v => proposedMs dateParse v == some m)) := by
  generalize hp : vectors.filter (fun v => statusOf v == some "pending_review") = pending
  constructor
  · intro hnone
    unfold latestPendingGroup
    simp only [hp]
    split
    · rename_i he
      simpa using he.symm
    · have hst : (pending.map (proposedMs dateParse)).filterMap id = [] := by
        rw [List.filterMap_eq_nil_iff]
        intro o ho
        obtain ⟨v, hv, rfl⟩ := List.mem_map.mp ho
        simpa using hnone v hv
      simp [hst]
  · intro m hm0 ⟨v0, hv0, hv0m⟩ hmax
    unfold latestPendingGroup
    simp only [hp]
    have hne : pending.isEmpty = false := by
      cases pending with
      | nil => simp at hv0
      | cons a l => rfl
    simp only [hne, Bool.false_eq_true, if_false]
    have hmem : ∀ t, t ∈ (pending.map (proposedMs dateParse)).filterMap id ↔
        ∃ v ∈ pending, proposedMs dateParse v = some t := by
      intro t
      simp [List.mem_filterMap]
    cases hs : ((pending.map (proposedMs dateParse)).filterMap id).insertionSort
        (fun a b => b ≤ a) with
    | nil =>
      have hperm := List.perm_insertionSort (fun a b : Int => b ≤ a)
        ((pending.map (proposedMs dateParse)).filterMap id)
      rw [hs] at hperm
      have hm : m ∈ (pending.map (proposedMs dateParse)).filterMap id :=
        (hmem m).mpr ⟨v0, hv0, hv0m⟩
      rw [hperm.symm.eq_nil] at hm
      simp at hm
    | cons latest rest =>
      obtain ⟨hin, hall⟩ := head_insertionSort_desc _ latest rest hs
      obtain ⟨v1, hv1, hv1t⟩ := (hmem latest).mp hin
      have h1 : latest ≤ m := hmax v1 hv1 latest hv1t
      have h2 : m ≤ latest := hall m ((hmem m).mpr ⟨v0, hv0, hv0m⟩)
      have heq : latest = m := le_antisymm h1 h2
      subst heq
      simp only [if_neg hm0]

/-! ## Reject transition -/

theorem onAgentEnd_reject_eq (toLowerCase : String → String) (dateParse : String → Option Int)
    (config : Config) (clock : Clock) (context : Context) (store : Store)
    (hEnabled : config.enabled = true)
    (hDecision : (detectApprovalDecision toLowerCase
      (some (extractLastMessageText toLowerCase context))).decision = Decision.reject)
    (hGroup : latestPendingGroup dateParse store.vectors ≠ []) :
    onAgentEnd toLowerCase dateParse config clock context store =
      Store.mk
        (updateVectors ((latestPendingGroup dateParse store.vectors).map (fun v => v.id))
          Decision.reject none clock.nowIso "" store.vectors)
        store.traits := by
  cases hg : latestPendingGroup dateParse store.vectors with
  | nil => exact absurd hg hGroup
  | cons first others =>
    unfold onAgentEnd
    simp [hEnabled, hDecision, hg]

theorem mem_group_contains (group : List Vector) (v : Vector) (hv : v ∈ group) :
    (group.map (fun v => v.id)).contains v.id = true := by
  have hm : v.id ∈ group.map (fun v => v.id) := List.mem_map_of_mem _ hv
  simpa using hm

/-- C11: a reject decision on a non-empty latest pending group leaves the trait
collection as it is and writes every vector of the group with its prior crystallization
fields, the status `rejected_crystallization` and `rejectedAt` set to the clock reading;
so `proposedTrait`, `principle`, `pattern` and `proposedAt` are retained. -/
theorem onAgentEnd_reject (toLowerCase : String → String) (dateParse : String → Option Int)
    (config : Config) (clock : Clock) (context : Context) (store : Store)
    (hEnabled : config.enabled = true)
    (hDecision : (detectApprovalDecision toLowerCase
      (some (extractLastMessageText toLowerCase context))).decision = Decision.reject)
    (hGroup : latestPendingGroup dateParse store.vectors ≠ []) :
    (onAgentEnd toLowerCase dateParse config clock context store).traits = store.traits ∧
    List.Forall₂ (fun old new =>
        old ∈ latestPendingGroup dateParse store.vectors →
          ∃ prior : CrystallizationState, old.crystallization = some prior ∧
            new.crystallization = some
              { prior with status := some "rejected_crystallization",
                           rejectedAt := some clock.nowIso } ∧
            statusOf new = some "rejected_crystallization" ∧
            (new.crystallization.bind fun c => c.rejectedAt) = some clock.nowIso ∧
            (new.crystallization.bind fun c => c.proposedTrait) = prior.proposedTrait ∧
            (new.crystallization.bind fun c => c.principle) = prior.principle ∧
            (new.crystallization.bind fun c => c.pattern) = prior.pattern ∧
            (new.crystallization.bind fun c => c.proposedAt) = prior.proposedAt)
      store.vectors (onAgentEnd toLowerCase dateParse config clock context store).vectors := by
  rw [onAgentEnd_reject_eq toLowerCase dateParse config clock context store hEnabled hDecision
    hGroup]
  refine ⟨rfl, ?_⟩
  simp only
  unfold updateVectors
  rw [List.forall₂_map_right_iff, List.forall₂_same]
  intro x _ hmem
  have hst := (latestPendingGroup_subset dateParse store.vectors x hmem).2
  rw [mem_group_contains _ x hmem]
  simp only [Bool.not_true, Bool.false_eq_true, if_false]
  unfold statusOf at hst
  cases hc : x.crystallization with
  | none => simp [hc] at hst
  | some prior =>
    refine ⟨prior, rfl, ?_, ?_, ?_, ?_, ?_, ?_, ?_⟩ <;> simp [applyDecision, hc, statusOf]

/-- Rejection of the later group of the two-group store. -/
theorem onAgentEnd_reject_witness :
    liveConfig.enabled = true ∧
    (detectApprovalDecision asciiLowerCase (some (extractLastMessageText asciiLowerCase
      { lastUserMessage := some "No, skip this one" }))).decision = Decision.reject ∧
    latestPendingGroup isoDateParse twoGroupStore.vectors ≠ [] ∧
    (onAgentEnd asciiLowerCase isoDateParse liveConfig febClock
        { lastUserMessage := some "No, skip this one" } twoGroupStore).vectors.map
        (fun v => (statusOf v, v.crystallization.bind fun c => c.rejectedAt,
          v.crystallization.bind fun c => c.proposedTrait))
      = [ (some "pending_review", none, some "I keep my promises"),
          (some "rejected_crystallization", some "2026-02-01T00:00:00.000Z", some "I speak up"),
          (some "approved", none, none),
          (some "rejected_crystallization", some "2026-02-01T00:00:00.000Z", some "I speak up"),
          (some "rejected_crystallization", some "2026-01-06T00:00:00.000Z", none) ] ∧
    (onAgentEnd asciiLowerCase isoDateParse liveConfig febClock
        { lastUserMessage := some "No, skip this one" } twoGroupStore).traits
      = twoGroupStore.traits :=
  ⟨rfl, by decide, by decide, by decide,
   (onAgentEnd_reject asciiLowerCase isoDateParse liveConfig febClock
      { lastUserMessage := some "No, skip this one" } twoGroupStore rfl (by decide)
      (by decide)).1⟩

theorem findCandidates_of_below (dateParse : String → Option Int) (vectors : List Vector)
    (config : Config) (nowMs : Int) (hBelow : pendingCount vectors < config.maxPending.getD 5) :
    findCandidates dateParse vectors config nowMs =
      vectors.filter (candidateGate dateParse (config.minAge.getD 0) nowMs) := by
  unfold findCandidates
  simp only
  rw [if_neg (not_le.mpr hBelow)]

/-- C13: a vector of the latest pending group with a non-empty id, `resolved` not `false`
and a `created` at least `minAge` before `now` is, after a reject decision, returned by
`findCandidates` on the resulting store with status `rejected_crystallization`, provided
the resulting store is below the pending ceiling. -/
theorem rejected_vector_is_candidate (toLowerCase : String → String)
    (dateParse : String → Option Int) (hEmpty : dateParse "" = none)
    (config : Config) (clock : Clock) (context : Context) (store : Store) (nowMs : Int)
    (v : Vector)
    (hEnabled : config.enabled = true)
    (hDecision : (detectApprovalDecision toLowerCase
      (some (extractLastMessageText toLowerCase context))).decision = Decision.reject)
    (hv : v ∈ latestPendingGroup dateParse store.vectors)
    (hId : ∃ i, v.id = some i ∧ i ≠ "")
    (hResolved : v.resolved ≠ some false)
    (hCreated : ∃ c t, v.created = some c ∧ dateParse c = some t ∧
      nowMs - t ≥ config.minAge.getD 0)
    (hBelow : pendingCount (onAgentEnd toLowerCase dateParse config clock context store).vectors
      < config.maxPending.getD 5) :
    ∃ v2 ∈ findCandidates dateParse
        (onAgentEnd toLowerCase dateParse config clock context store).vectors config nowMs,
      v2.id = v.id ∧ { v2 with crystallization := v.crystallization } = v ∧
      statusOf v2 = some "rejected_crystallization" := by
  have hne : latestPendingGroup dateParse store.vectors ≠ [] := List.ne_nil_of_mem hv
  have hout := onAgentEnd_reject_eq toLowerCase dateParse config clock context store hEnabled
    hDecision hne
  rw [findCandidates_of_below dateParse _ config nowMs hBelow]
  rw [hout]
  simp only
  have hvs := (latestPendingGroup_subset dateParse store.vectors v hv).1
  have hst := (latestPendingGroup_subset dateParse store.vectors v hv).2
  refine ⟨applyDecision Decision.reject none clock.nowIso "" v, ?_, rfl, rfl, ?_⟩
  · rw [List.mem_filter]
    constructor
    · unfold updateVectors
      rw [List.mem_map]
      refine ⟨v, hvs, ?_⟩
      rw [mem_group_contains _ v hv]
      simp
    · rw [candidateGate_iff dateParse hEmpty config nowMs]
      refine ⟨hId, ?_, hResolved, hCreated⟩
      constructor <;> simp [applyDecision, statusOf]
  · simp [applyDecision, statusOf]

/-- After `reject this` on the proposed store, `v1` is a candidate of the scan of 2026-02-20. -/
theorem rejected_vector_is_candidate_witness :
    testConfig.enabled = true ∧
    (detectApprovalDecision asciiLowerCase (some (extractLastMessageText asciiLowerCase
      { lastUserMessage := some "reject this" }))).decision = Decision.reject ∧
    (findCandidates isoDateParse
        (onAgentEnd asciiLowerCase isoDateParse testConfig tenthClock
          { lastUserMessage := some "reject this" } proposedStore).vectors
        testConfig 1771545600000).map (fun v => (v.id, statusOf v))
      = [ (some "v1", some "rejected_crystallization"),
          (some "v2", some "rejected_crystallization"),
          (some "v3", some "rejected_crystallization") ] ∧
    ∃ v2 ∈ findCandidates isoDateParse
        (onAgentEnd asciiLowerCase isoDateParse testConfig tenthClock
          { lastUserMessage := some "reject this" } proposedStore).vectors
        testConfig 1771545600000,
      v2.id = some "v1" ∧ statusOf v2 = some "rejected_crystallization" :=
  ⟨rfl, by decide, by decide,
   match rejected_vector_is_candidate asciiLowerCase isoDateParse (by decide) testConfig
      tenthClock { lastUserMessage := some "reject this" } proposedStore 1771545600000
      { id := some "v1", text := some "kept the deadline",
        created := some "2025-11-01T00:00:00Z", resolved := some true,
        crystallization := some promiseProposal }
      rfl (by decide) (by decide) ⟨"v1", rfl, by decide⟩ (by decide)
      ⟨"2025-11-01T00:00:00Z", 1761955200000, rfl, by decide, by decide⟩ (by decide) with
   | ⟨v2, hmem, hid, _, hst⟩ => ⟨v2, hmem, hid, hst⟩⟩


/-! ## Decision parser: the edit text -/

theorem trimList_head (s : List Char) (c : Char) (h : (trimList s).head? = some c) :
    isJsSpace c = false := by
  unfold trimList at h
  rw [List.head?_reverse] at h
  -- the last of a suffix of the reversed list is the head of the list after `dropWhile`
  have hsuf := List.dropWhile_suffix (l := (s.dropWhile isJsSpace).reverse) isJsSpace
  have hne : ((s.dropWhile isJsSpace).reverse.dropWhile isJsSpace) ≠ [] := by
    intro h0; rw [h0] at h; simp at h
  have hl := hsuf.getLast hne
  rw [List.getLast?_eq_getLast _ hne] at h
  have hne2 : (s.dropWhile isJsSpace).reverse ≠ [] := by
    intro h0; rw [h0] at hne; simp at hne
  have h3 : (s.dropWhile isJsSpace).reverse.getLast? = some c := by
    rw [List.getLast?_eq_getLast _ hne2, ← hl]; exact h
  rw [List.getLast?_reverse] at h3
  have h4 := List.head?_dropWhile_not isJsSpace s
  rw [h3] at h4
  simpa using h4

theorem trimList_last (s : List Char) (c : Char) (h : (trimList s).getLast? = some c) :
    isJsSpace c = false := by
  unfold trimList at h
  rw [List.getLast?_reverse] at h
  have h4 := List.head?_dropWhile_not isJsSpace (s.dropWhile isJsSpace).reverse
  rw [h] at h4
  simpa using h4

theorem trimList_ne_nil (l : List Char) (c : Char) (hl : l.getLast? = some c)
    (hc : isJsSpace c = false) : trimList l ≠ [] := by
  have hd : (l.dropWhile isJsSpace).getLast? = some c := by
    induction l with
    | nil => simp at hl
    | cons a l ih =>
      by_cases ha : isJsSpace a = true
      · rw [List.dropWhile_cons_of_pos ha]
        cases l with
        | nil =>
          simp at hl
          subst hl
          rw [hc] at ha
          cases ha
        | cons b l =>
          rw [List.getLast?_cons_cons] at hl
          exact ih hl
      · rw [List.dropWhile_cons_of_neg ha]
        exact hl
  unfold trimList
  intro h0
  rw [List.reverse_eq_nil_iff] at h0
  have hh : (l.dropWhile isJsSpace).reverse.head? = some c := by
    rw [List.head?_reverse]; exact hd
  cases hr : (l.dropWhile isJsSpace).reverse with
  | nil => rw [hr] at hh; simp at hh
  | cons x xs =>
    rw [hr] at hh h0
    simp only [List.head?_cons, Option.some.injEq] at hh
    subst hh
    rw [List.dropWhile_cons_of_neg (by simp [hc])] at h0
    cases h0

theorem dotPlusToEnd_eq_some (s cap : List Char) (h : dotPlusToEnd s = some cap) :
    cap = s ∧ s ≠ [] := by
  unfold dotPlusToEnd at h
  split at h
  · rename_i hc
    exact ⟨by simpa using h.symm, hc.1⟩
  · cases h

theorem spacesThenCapture_suffix (s cap : List Char) (h : spacesThenCapture s = some cap) :
    cap ≠ [] ∧ cap <:+ s := by
  induction s with
  | nil =>
    simp only [spacesThenCapture] at h
    obtain ⟨_, h2⟩ := dotPlusToEnd_eq_some _ _ h
    exact absurd rfl h2
  | cons c cs ih =>
    simp only [spacesThenCapture] at h
    split at h
    · split at h
      · rename_i cap2 hcap
        simp only [Option.some.injEq] at h
        subst h
        obtain ⟨h1, h2⟩ := ih hcap
        exact ⟨h1, h2.trans (List.suffix_cons c cs)⟩
      · obtain ⟨h1, h2⟩ := dotPlusToEnd_eq_some _ _ h
        subst h1
        exact ⟨h2, List.suffix_refl _⟩
    · obtain ⟨h1, h2⟩ := dotPlusToEnd_eq_some _ _ h
      subst h1
      exact ⟨h2, List.suffix_refl _⟩

theorem spacesThenColon_suffix (s rest : List Char) (h : spacesThenColon s = some rest) :
    rest <:+ s := by
  induction s with
  | nil => simp [spacesThenColon] at h
  | cons c cs ih =>
    simp only [spacesThenColon] at h
    split at h
    · exact (ih h).trans (List.suffix_cons c cs)
    · split at h
      · simp only [Option.some.injEq] at h
        subst h
        exact List.suffix_cons c cs
      · cases h

theorem matchLiteral_suffix (w : List Char) (prev : Option Char) (s : List Char)
    (last : Option Char) (rest : List Char) (h : matchLiteral w prev s = some (last, rest)) :
    rest <:+ s := by
  obtain ⟨mid, hs, _, _⟩ := (matchLiteral_eq_some w prev s last rest).mp h
  exact ⟨mid, hs.symm⟩

theorem editAt_suffix (prev : Option Char) (s cap : List Char) (h : editAt prev s = some cap) :
    cap ≠ [] ∧ cap <:+ s := by
  unfold editAt at h
  split at h
  · split at h
    · rename_i last rest hml
      split at h
      · rename_i afterColon hcol
        obtain ⟨h1, h2⟩ := spacesThenCapture_suffix _ _ h
        exact ⟨h1, h2.trans ((spacesThenColon_suffix _ _ hcol).trans
          (matchLiteral_suffix _ _ _ _ _ hml))⟩
      · cases h
    · cases h
  · cases h

theorem editMatch_suffix (prev : Option Char) (s cap : List Char)
    (h : editMatch prev s = some cap) : cap ≠ [] ∧ cap <:+ s := by
  induction s generalizing prev with
  | nil =>
    simp only [editMatch] at h
    exact editAt_suffix _ _ _ h
  | cons c cs ih =>
    simp only [editMatch] at h
    split at h
    · rename_i cap2 hat
      simp only [Option.some.injEq] at h
      subst h
      exact editAt_suffix _ _ _ hat
    · obtain ⟨h1, h2⟩ := ih (some c) h
      exact ⟨h1, h2.trans (List.suffix_cons c cs)⟩

theorem detect_edit_text (toLowerCase : String → String) (messageText : Option String)
    (hEdit : (detectApprovalDecision toLowerCase messageText).decision = Decision.edit) :
    ∃ e : String, (detectApprovalDecision toLowerCase messageText).editText = some e ∧
      e ≠ "" ∧ (∀ c, e.data.head? = some c → isJsSpace c = false) ∧
      (∀ c, e.data.getLast? = some c → isJsSpace c = false) := by
  unfold detectApprovalDecision at hEdit ⊢
  simp only at hEdit ⊢
  split at hEdit
  · cases hEdit
  · rename_i hne
    rw [if_neg hne]
    cases hm : editMatch none (jsTrim (toLowerCase (messageText.getD ""))).data with
    | none =>
      rw [hm] at hEdit
      simp only at hEdit
      split at hEdit
      · cases hEdit
      · split at hEdit <;> cases hEdit
    | some cap =>
      simp only
      obtain ⟨hcap, hsuf⟩ := editMatch_suffix _ _ _ hm
      have hlast : cap.getLast? =
          (jsTrim (toLowerCase (messageText.getD ""))).data.getLast? := by
        have hy := hsuf.ne_nil hcap
        rw [List.getLast?_eq_getLast _ hcap, List.getLast?_eq_getLast _ hy, hsuf.getLast hcap]
      have hns : isJsSpace (cap.getLast hcap) = false := by
        apply trimList_last (toLowerCase (messageText.getD "")).data
        show (jsTrim (toLowerCase (messageText.getD ""))).data.getLast? = _
        rw [← hlast, List.getLast?_eq_getLast _ hcap]
      have hne2 : trimList cap ≠ [] :=
        trimList_ne_nil cap _ (List.getLast?_eq_getLast _ hcap) hns
      refine ⟨jsTrim ⟨cap⟩, rfl, ?_, ?_, ?_⟩
      · intro h0
        apply hne2
        have : (jsTrim ⟨cap⟩).data = "".data := by rw [h0]
        exact this
      · intro c hc
        exact trimList_head cap c hc
      · intro c hc
        exact trimList_last cap c hc

/-- C20: when the decision is `edit` the returned `editText` is a non-empty string that
neither starts nor ends with white space; for every other decision no `editText` is
returned; and an edit transition writes every vector either as it was or with a non-empty
`proposedTrait`. -/
theorem editText_nonempty_trimmed (toLowerCase : String → String) :
    (∀ messageText : Option String,
      ((detectApprovalDecision toLowerCase messageText).decision = Decision.edit →
        ∃ e : String, (detectApprovalDecision toLowerCase messageText).editText = some e ∧
          e ≠ "" ∧ (∀ c, e.data.head? = some c → isJsSpace c = false) ∧
          (∀ c, e.data.getLast? = some c → isJsSpace c = false)) ∧
      ((detectApprovalDecision toLowerCase messageText).decision ≠ Decision.edit →
        (detectApprovalDecision toLowerCase messageText).editText = none)) ∧
    (∀ (dateParse : String → Option Int) (config : Config) (clock : Clock)
        (context : Context) (store : Store),
      (detectApprovalDecision toLowerCase
        (some (extractLastMessageText toLowerCase context))).decision = Decision.edit →
      List.Forall₂ (fun old new =>
          new = old ∨ ∃ e : String, e ≠ "" ∧
            (new.crystallization.bind fun c => c.proposedTrait) = some e)
        store.vectors (onAgentEnd toLowerCase dateParse config clock context store).vectors) := by
  constructor
  · intro messageText
    refine ⟨detect_edit_text toLowerCase messageText, ?_⟩
    intro hne
    unfold detectApprovalDecision at hne ⊢
    simp only at hne ⊢
    split
    · rfl
    · rename_i h1
      rw [if_neg h1] at hne
      cases hm : editMatch none (jsTrim (toLowerCase (messageText.getD ""))).data with
      | some cap => rw [hm] at hne; exact absurd rfl hne
      | none =>
        simp only
        split
        · rfl
        · split <;> rfl
  · intro dateParse config clock context store hEdit
    obtain ⟨e, he, hne, _, _⟩ := detect_edit_text toLowerCase _ hEdit
    have hsame : ∀ l : List Vector, List.Forall₂ (fun old new : Vector =>
        new = old ∨ ∃ e : String, e ≠ "" ∧
          (new.crystallization.bind fun c => c.proposedTrait) = some e) l l := by
      intro l
      rw [List.forall₂_same]
      intro x _
      exact Or.inl rfl
    unfold onAgentEnd
    split
    · exact hsame _
    · simp only [hEdit]
      split
      · rename_i h; cases h
      · split
        · exact hsame _
        · simp only [updateVectors]
          rw [List.forall₂_map_right_iff, List.forall₂_same]
          intro x _
          split
          · exact Or.inl rfl
          · right
            exact ⟨e, hne, by simp [applyDecision, he]⟩

/-- The edit text of the test message, and two bare `edit:` messages that are no edit. -/
theorem editText_nonempty_trimmed_witness :
    (∃ e : String,
      (detectApprovalDecision asciiLowerCase (some "edit: tighten the wording")).editText
        = some e ∧ e ≠ "") ∧
    detectApprovalDecision asciiLowerCase (some "edit: tighten the wording")
      = { decision := Decision.edit, editText := some "tighten the wording" } ∧
    detectApprovalDecision asciiLowerCase (some "edit:") = { decision := Decision.none } ∧
    detectApprovalDecision asciiLowerCase (some "  Edit :   ") = { decision := Decision.none } :=
  ⟨match ((editText_nonempty_trimmed asciiLowerCase).1
      (some "edit: tighten the wording")).1 (by decide) with
   | ⟨e, he, hne, _⟩ => ⟨e, he, hne⟩,
   by decide, by decide, by decide⟩

/-! ## Edit transition -/

theorem latestPendingGroup_eq_filter (dateParse : String → Option Int) (vectors : List Vector) :
    ∃ P : Vector → Bool, latestPendingGroup dateParse vectors = vectors.filter P := by
  unfold latestPendingGroup
  simp only
  split
  · rename_i he
    refine ⟨fun v => statusOf v == some "pending_review", ?_⟩
    simpa using he.symm
  · split
    · exact ⟨_, rfl⟩
    · split
      · exact ⟨_, rfl⟩
      · rw [List.filter_filter]
        exact ⟨_, rfl⟩

theorem onAgentEnd_edit_eq (toLowerCase : String → String) (dateParse : String → Option Int)
    (config : Config) (clock : Clock) (context : Context) (store : Store)
    (hEnabled : config.enabled = true)
    (hDecision : (detectApprovalDecision toLowerCase
      (some (extractLastMessageText toLowerCase context))).decision = Decision.edit)
    (hGroup : latestPendingGroup dateParse store.vectors ≠ []) :
    onAgentEnd toLowerCase dateParse config clock context store =
      Store.mk
        (updateVectors ((latestPendingGroup dateParse store.vectors).map (fun v => v.id))
          Decision.edit
          (detectApprovalDecision toLowerCase
            (some (extractLastMessageText toLowerCase context))).editText
          clock.nowIso "" store.vectors)
        store.traits := by
  cases hg : latestPendingGroup dateParse store.vectors with
  | nil => exact absurd hg hGroup
  | cons first others =>
    unfold onAgentEnd
    simp [hEnabled, hDecision, hg]

theorem applyDecision_id (decision : Decision) (editText : Option String)
    (nowIso traitId : String) (v : Vector) :
    (applyDecision decision editText nowIso traitId v).id = v.id := by
  cases decision <;> rfl

theorem proposedMs_edit (dateParse : String → Option Int) (editText : Option String)
    (nowIso : String) (hIso : nowIso ≠ "") (v : Vector) :
    proposedMs dateParse (applyDecision Decision.edit editText nowIso "" v) = dateParse nowIso ∧
    statusOf (applyDecision Decision.edit editText nowIso "" v) = some "pending_review" := by
  constructor
  · simp [proposedMs, applyDecision, orDefault, hIso]
  · simp [statusOf, applyDecision]

/-- The edit transition away from the epoch instant: when the clock reading parses to a
timestamp that is not `0` and is later than the timestamp of every pending vector, an edit
decision on a non-empty latest pending group leaves the trait collection as it is, writes
every vector of the group with the edit text as `proposedTrait`, the clock reading as
`proposedAt`, status `pending_review` and its other crystallization fields as before, and
the latest pending group of the resulting store consists of the vectors with the ids of
the old group. -/
theorem onAgentEnd_edit_regroup (toLowerCase : String → String)
    (dateParse : String → Option Int) (config : Config) (clock : Clock) (context : Context)
    (store : Store) (n : Int)
    (hEnabled : config.enabled = true)
    (hDecision : (detectApprovalDecision toLowerCase
      (some (extractLastMessageText toLowerCase context))).decision = Decision.edit)
    (hGroup : latestPendingGroup dateParse store.vectors ≠ [])
    (hIso : clock.nowIso ≠ "") (hNow : dateParse clock.nowIso = some n) (hNonzero : n ≠ 0)
    (hLater : ∀ v ∈ store.vectors, statusOf v = some "pending_review" →
      ∀ t, proposedMs dateParse v = some t → t < n) :
    (onAgentEnd toLowerCase dateParse config clock context store).traits = store.traits ∧
    List.Forall₂ (fun old new =>
        old ∈ latestPendingGroup dateParse store.vectors →
          ∃ prior : CrystallizationState, old.crystallization = some prior ∧
            new.crystallization = some
              { prior with
                proposedTrait := (detectApprovalDecision toLowerCase
                  (some (extractLastMessageText toLowerCase context))).editText,
                proposedAt := some clock.nowIso,
                status := some "pending_review" })
      store.vectors (onAgentEnd toLowerCase dateParse config clock context store).vectors ∧
    latestPendingGroup dateParse
        (onAgentEnd toLowerCase dateParse config clock context store).vectors =
      (onAgentEnd toLowerCase dateParse config clock context store).vectors.filter
        (fun v => ((latestPendingGroup dateParse store.vectors).map (fun v => v.id)).contains
          v.id) ∧
    (∀ i, i ∈ (latestPendingGroup dateParse
          (onAgentEnd toLowerCase dateParse config clock context store).vectors).map
          (fun v => v.id) ↔
        i ∈ (latestPendingGroup dateParse store.vectors).map (fun v => v.id)) ∧
    ((store.vectors.map (fun v => v.id)).Nodup →
      (latestPendingGroup dateParse
          (onAgentEnd toLowerCase dateParse config clock context store).vectors).map
          (fun v => v.id) =
        (latestPendingGroup dateParse store.vectors).map (fun v => v.id)) := by
  rw [onAgentEnd_edit_eq toLowerCase dateParse config clock context store hEnabled hDecision
    hGroup]
  simp only
  generalize hE : (detectApprovalDecision toLowerCase
    (some (extractLastMessageText toLowerCase context))).editText = editText
  generalize hG : latestPendingGroup dateParse store.vectors = G at hGroup
  have hGsub : ∀ v ∈ G, v ∈ store.vectors ∧ statusOf v = some "pending_review" := by
    intro v hv
    rw [← hG] at hv
    exact latestPendingGroup_subset dateParse store.vectors v hv
  -- the callback of the map
  have hf : ∀ v : Vector,
      (if !(G.map (fun v => v.id)).contains v.id then v
        else applyDecision Decision.edit editText clock.nowIso "" v).id = v.id := by
    intro v
    split
    · rfl
    · exact applyDecision_id _ _ _ _ v
  have hgroup : latestPendingGroup dateParse
      (updateVectors (G.map (fun v => v.id)) Decision.edit editText clock.nowIso ""
        store.vectors) =
      (updateVectors (G.map (fun v => v.id)) Decision.edit editText clock.nowIso ""
        store.vectors).filter (fun v => (G.map (fun v => v.id)).contains v.id) := by
    rw [(latestPendingGroup_of_max dateParse _).2 n hNonzero ?_ ?_]
    · rw [List.filter_filter]
      apply List.filter_congr
      intro v hv
      unfold updateVectors at hv
      obtain ⟨v0, hv0, rfl⟩ := List.mem_map.mp hv
      by_cases hc : (G.map (fun v => v.id)).contains v0.id = true
      · simp only [hc, Bool.not_true, Bool.false_eq_true, if_false]
        have h1 := proposedMs_edit dateParse editText clock.nowIso hIso v0
        have hmem : ∃ a ∈ G, a.id = v0.id := by simpa using hc
        simp [h1.1, h1.2, hNow, applyDecision_id, hmem]
      · have hc2 : (G.map (fun v => v.id)).contains v0.id = false := by simpa using hc
        simp only [hc2, Bool.not_false, if_true]
        by_cases hst : statusOf v0 = some "pending_review"
        · have hne : proposedMs dateParse v0 ≠ some n := by
            intro h3
            exact absurd (hLater v0 hv0 hst n h3) (lt_irrefl n)
          simp [hne]
        · simp [hst]
    · obtain ⟨g, hg⟩ := List.exists_mem_of_ne_nil G hGroup
      refine ⟨applyDecision Decision.edit editText clock.nowIso "" g, ?_, ?_⟩
      · rw [List.mem_filter]
        refine ⟨?_, by simp [(proposedMs_edit dateParse editText clock.nowIso hIso g).2]⟩
        unfold updateVectors
        rw [List.mem_map]
        refine ⟨g, (hGsub g hg).1, ?_⟩
        rw [mem_group_contains G g hg]
        simp
      · rw [(proposedMs_edit dateParse editText clock.nowIso hIso g).1, hNow]
    · intro v hv t ht
      rw [List.mem_filter] at hv
      obtain ⟨hv1, hv2⟩ := hv
      unfold updateVectors at hv1
      obtain ⟨v0, hv0, rfl⟩ := List.mem_map.mp hv1
      by_cases hc : (G.map (fun v => v.id)).contains v0.id = true
      · simp only [hc, Bool.not_true, Bool.false_eq_true, if_false] at ht
        rw [(proposedMs_edit dateParse editText clock.nowIso hIso v0).1, hNow] at ht
        simp only [Option.some.injEq] at ht
        exact le_of_eq ht.symm
      · have hc2 : (G.map (fun v => v.id)).contains v0.id = false := by simpa using hc
        simp only [hc2, Bool.not_false, if_true] at ht hv2
        exact le_of_lt (hLater v0 hv0 (by simpa using hv2) t ht)
  refine ⟨trivial, ?_, hgroup, ?_, ?_⟩
  · unfold updateVectors
    rw [List.forall₂_map_right_iff, List.forall₂_same]
    intro x _ hmem
    have hst := (hGsub x hmem).2
    rw [mem_group_contains G x hmem]
    simp only [Bool.not_true, Bool.false_eq_true, if_false]
    unfold statusOf at hst
    cases hc : x.crystallization with
    | none => simp [hc] at hst
    | some prior => exact ⟨prior, rfl, by simp [applyDecision, hc]⟩
  · intro i
    rw [hgroup]
    unfold updateVectors
    rw [List.filter_map, List.map_map]
    constructor
    · intro hi
      obtain ⟨v, hv, rfl⟩ := List.mem_map.mp hi
      have h2 := (List.mem_filter.mp hv).2
      simp only [Function.comp, hf] at h2 ⊢
      simpa using h2
    · intro hi
      obtain ⟨g, hg, rfl⟩ := List.mem_map.mp hi
      rw [List.mem_map]
      refine ⟨g, ?_, ?_⟩
      · rw [List.mem_filter]
        refine ⟨(hGsub g hg).1, ?_⟩
        simp only [Function.comp, hf]
        exact mem_group_contains G g hg
      · simp only [Function.comp, hf]
  · intro hnd
    rw [hgroup]
    unfold updateVectors
    rw [List.filter_map, List.map_map]
    obtain ⟨P, hP⟩ := latestPendingGroup_eq_filter dateParse store.vectors
    rw [hG] at hP
    have hfil : store.vectors.filter
        ((fun v => (G.map (fun v => v.id)).contains v.id) ∘ fun vector =>
          if !(G.map (fun v => v.id)).contains vector.id then vector
          else applyDecision Decision.edit editText clock.nowIso "" vector) = G := by
      conv_rhs => rw [hP]
      apply List.filter_congr
      intro v hv
      simp only [Function.comp, hf]
      by_cases hPv : P v = true
      · have hvG : v ∈ G := by rw [hP, List.mem_filter]; exact ⟨hv, hPv⟩
        rw [mem_group_contains G v hvG, hPv]
      · have hnot : v ∉ G := by
          intro hvG
          rw [hP, List.mem_filter] at hvG
          exact hPv hvG.2
        have hid : v.id ∉ G.map (fun v => v.id) := by
          intro hmem
          obtain ⟨g, hg, hgid⟩ := List.mem_map.mp hmem
          have := List.inj_on_of_nodup_map hnd (hGsub g hg).1 hv hgid
          exact hnot (this ▸ hg)
        have hc : (G.map (fun v => v.id)).contains v.id = false := by simpa using hid
        rw [hc]
        simpa using hPv
    rw [hfil]
    apply List.map_congr_left
    intro v _
    simp only [Function.comp, hf]

/-- C12 at an edit made at the epoch instant on a store whose pending vectors were proposed
two seconds (`a`) and one second (`b`) before: the latest pending group is `b`, the clock
reading is later than both proposals, and after the edit the latest pending group is `a`
and `b`, because the greatest timestamp is then `0` and `!latestTimestamp` holds. -/
theorem edit_at_epoch_widens_group :
    (latestPendingGroup isoDateParse preEpochStore.vectors).map (fun v => v.id) = [some "b"] ∧
    preEpochStore.vectors.map (proposedMs isoDateParse) = [some (-2000), some (-1000)] ∧
    isoDateParse epochClock.nowIso = some 0 ∧
    (detectApprovalDecision asciiLowerCase (some (extractLastMessageText asciiLowerCase
      { lastUserMessage := some "edit: I say what I think" }))).decision = Decision.edit ∧
    (latestPendingGroup isoDateParse
        (onAgentEnd asciiLowerCase isoDateParse liveConfig epochClock
          { lastUserMessage := some "edit: I say what I think" } preEpochStore).vectors).map
        (fun v => (v.id, v.crystallization.bind fun c => c.proposedTrait))
      = [ (some "a", some "I keep my promises"), (some "b", some "i say what i think") ] := by
  refine ⟨by decide, by decide, by decide, by decide, by decide⟩

/-! ## Trait ids -/

/-- C16 at two approvals whose `Date.now()` readings are the same millisecond: the later
group of the two-group store is approved, then the earlier group, and the two trait
records carry the same id. -/
theorem trait_ids_collide_within_millisecond :
    (onAgentEnd asciiLowerCase isoDateParse liveConfig febClock
        { lastUserMessage := some "yes" } twoGroupStore).traits.map (fun t => (t.id, t.sources))
      = [ ("trait_1769904000001", [some "b", some "d"]) ] ∧
    (onAgentEnd asciiLowerCase isoDateParse liveConfig febClock { lastUserMessage := some "yes" }
        (onAgentEnd asciiLowerCase isoDateParse liveConfig febClock
          { lastUserMessage := some "yes" } twoGroupStore)).traits.map
        (fun t => (t.id, t.sources))
      = [ ("trait_1769904000001", [some "b", some "d"]),
          ("trait_1769904000001", [some "a"]) ] ∧
    ¬ ((onAgentEnd asciiLowerCase isoDateParse liveConfig febClock
        { lastUserMessage := some "yes" }
        (onAgentEnd asciiLowerCase isoDateParse liveConfig febClock
          { lastUserMessage := some "yes" } twoGroupStore)).traits.map (fun t => t.id)).Nodup := by
  refine ⟨by decide, by decide, by decide⟩

/-! ## Approval request template -/

theorem takeWhile_append_brace (l rest : List Char) :
    (l ++ '{' :: rest).takeWhile isWordChar = l.takeWhile isWordChar ∧
    (l ++ '{' :: rest).dropWhile isWordChar = l.dropWhile isWordChar ++ '{' :: rest := by
  have hb : isWordChar '{' = false := by decide
  induction l with
  | nil => simp [List.takeWhile, List.dropWhile, hb]
  | cons a l ih =>
    by_cases ha : isWordChar a = true
    · simp [List.takeWhile, List.dropWhile, ha, ih.1, ih.2]
    · have ha2 : isWordChar a = false := by simpa using ha
      simp [List.takeWhile, List.dropWhile, ha2]

theorem placeholderAt_eq_some (s key rest : List Char)
    (h : placeholderAt s = some (key, rest)) :
    s = '{' :: (key ++ '}' :: rest) ∧ key ≠ [] ∧ ∀ c ∈ key, isWordChar c = true := by
  unfold placeholderAt at h
  split at h
  · rename_i cs
    split at h
    · rename_i k ks rest2 htake hdrop
      simp only [Option.some.injEq, Prod.mk.injEq] at h
      obtain ⟨rfl, rfl⟩ := h
      refine ⟨?_, by simp, ?_⟩
      · have := List.takeWhile_append_dropWhile isWordChar cs
        rw [htake, hdrop] at this
        rw [← this]
      · intro c hc
        rw [← htake] at hc
        exact List.mem_takeWhile_imp hc
    · cases h
  · cases h

theorem placeholderAt_of_shape (key rest : List Char) (hne : key ≠ [])
    (hw : ∀ c ∈ key, isWordChar c = true) :
    placeholderAt ('{' :: (key ++ '}' :: rest)) = some (key, rest) := by
  have hb : isWordChar '}' = false := by decide
  have h1 : ∀ key : List Char, (∀ c ∈ key, isWordChar c = true) →
      (key ++ '}' :: rest).takeWhile isWordChar = key ∧
      (key ++ '}' :: rest).dropWhile isWordChar = '}' :: rest := by
    intro key
    induction key with
    | nil => intro _; simp [List.takeWhile, List.dropWhile, hb]
    | cons a key ih =>
      intro hw
      have ha := hw a (by simp)
      have ih2 := ih (fun c hc => hw c (List.mem_cons_of_mem _ hc))
      rw [List.cons_append, List.takeWhile_cons_of_pos ha, List.dropWhile_cons_of_pos ha]
      exact ⟨by rw [ih2.1], ih2.2⟩
  have h2 := (h1 key hw).2
  have h1 := (h1 key hw).1
  cases key with
  | nil => exact absurd rfl hne
  | cons k ks =>
    unfold placeholderAt
    simp only [h1, h2]

theorem placeholderAt_append_brace (c : Char) (cs rest : List Char) :
    placeholderAt (c :: (cs ++ '{' :: rest)) =
      (placeholderAt (c :: cs)).map (fun kr => (kr.1, kr.2 ++ '{' :: rest)) := by
  by_cases hc : c = '{'
  · subst hc
    simp only [placeholderAt, List.cons_append]
    rw [(takeWhile_append_brace cs rest).1, (takeWhile_append_brace cs rest).2]
    cases htake : cs.takeWhile isWordChar with
    | nil => simp
    | cons k ks =>
      cases hdrop : cs.dropWhile isWordChar with
      | nil => simp
      | cons d ds =>
        by_cases hd : d = '}'
        · subst hd; simp
        · simp [hd]
  · unfold placeholderAt
    simp [hc]

theorem replacePlaceholders_zero_cons (value : List Char → List Char) (c : Char)
    (cs : List Char) :
    replacePlaceholders value 0 (c :: cs) =
      match placeholderAt (c :: cs) with
      | some (key, _) => value key ++ replacePlaceholders value (key.length + 1) cs
      | none => c :: replacePlaceholders value 0 cs := rfl

theorem replacePlaceholders_succ_cons (value : List Char → List Char) (k : Nat) (c : Char)
    (cs : List Char) :
    replacePlaceholders value (k + 1) (c :: cs) = replacePlaceholders value k cs := rfl

theorem replacePlaceholders_skip_key (value : List Char → List Char) (k r : List Char) :
    replacePlaceholders value (k.length + 1) (k ++ '}' :: r) =
      replacePlaceholders value 0 r := by
  induction k with
  | nil => rfl
  | cons a k ih =>
    rw [List.length_cons, List.cons_append, replacePlaceholders_succ_cons]
    exact ih

theorem replacePlaceholders_append (value : List Char → List Char)
    (pre key post : List Char) (hne : key ≠ []) (hw : ∀ c ∈ key, isWordChar c = true)
    (skip : Nat) (hskip : skip ≤ pre.length) :
    replacePlaceholders value skip (pre ++ '{' :: (key ++ '}' :: post)) =
      replacePlaceholders value skip pre ++ (value key ++
        replacePlaceholders value 0 post) := by
  induction pre generalizing skip with
  | nil =>
    have hs : skip = 0 := by simpa using hskip
    subst hs
    have hp := placeholderAt_of_shape key post hne hw
    rw [List.nil_append, replacePlaceholders_zero_cons, hp]
    simp only
    rw [replacePlaceholders_skip_key]
    rfl
  | cons c pre ih =>
    cases skip with
    | succ k =>
      rw [List.cons_append, replacePlaceholders_succ_cons, replacePlaceholders_succ_cons]
      exact ih k (by simpa using hskip)
    | zero =>
      have happ := placeholderAt_append_brace c pre (key ++ '}' :: post)
      rw [List.cons_append, replacePlaceholders_zero_cons, replacePlaceholders_zero_cons,
        happ]
      cases hp : placeholderAt (c :: pre) with
      | none =>
        simp only [Option.map_none']
        rw [ih 0 (Nat.zero_le _)]
        rfl
      | some kr =>
        obtain ⟨k2, r2⟩ := kr
        simp only [Option.map_some']
        obtain ⟨hshape, _, _⟩ := placeholderAt_eq_some _ _ _ hp
        have hlen : k2.length + 1 ≤ pre.length := by
          simp only [List.cons_append, List.cons.injEq] at hshape
          rw [hshape.2]
          simp
        rw [ih (k2.length + 1) hlen]
        simp

theorem replacePlaceholders_of_no_placeholder (value : List Char → List Char)
    (t : List Char) (h : ¬ HasPlaceholder t) : replacePlaceholders value 0 t = t := by
  induction t with
  | nil => rfl
  | cons c cs ih =>
    rw [replacePlaceholders_zero_cons]
    cases hp : placeholderAt (c :: cs) with
    | some kr =>
      exfalso
      obtain ⟨hshape, hne, hw⟩ := placeholderAt_eq_some _ kr.1 kr.2 (by rw [hp])
      exact h ⟨[], kr.1, kr.2, by simp [hshape], hne, hw⟩
    | none =>
      simp only
      rw [ih]
      rintro ⟨pre, key, post, hs, hne, hw⟩
      exact h ⟨c :: pre, key, post, by simp [hs], hne, hw⟩

theorem fill_at_key (inherited : String → Option String) (trait principle : String)
    (count : Nat) (key : List Char) (hne : key ≠ []) (hw : ∀ c ∈ key, isWordChar c = true)
    (template : String) (pre post : List Char)
    (h : template.data = pre ++ ('{' :: (key ++ '}' :: post))) :
    (generateApprovalRequest inherited template trait principle count).data =
      (generateApprovalRequest inherited ⟨pre⟩ trait principle count).data ++
        (placeholderValue inherited trait principle count key ++
          (generateApprovalRequest inherited ⟨post⟩ trait principle count).data) := by
  unfold generateApprovalRequest fillTemplate
  simp only
  rw [h]
  exact replacePlaceholders_append _ pre key post hne hw 0 (Nat.zero_le _)

/-- C19: at every occurrence of `{trait}`, `{principle}` or `{count}` the result is the
result for the text before it, then the trait text, the principle or the decimal count as
it is, then the result for the text after it; a template without any placeholder is
returned unchanged; so a template that contains `{trait}` and `{count}` gives a message
that contains the trait text and the count. -/
theorem generateApprovalRequest_replaces (inherited : String → Option String)
    (template trait principle : String) (count : Nat) :
    (∀ pre post : List Char, template.data = pre ++ ("{trait}".data ++ post) →
      (generateApprovalRequest inherited template trait principle count).data =
        (generateApprovalRequest inherited ⟨pre⟩ trait principle count).data ++
          (trait.data ++
            (generateApprovalRequest inherited ⟨post⟩ trait principle count).data)) ∧
    (∀ pre post : List Char, template.data = pre ++ ("{principle}".data ++ post) →
      (generateApprovalRequest inherited template trait principle count).data =
        (generateApprovalRequest inherited ⟨pre⟩ trait principle count).data ++
          (principle.data ++
            (generateApprovalRequest inherited ⟨post⟩ trait principle count).data)) ∧
    (∀ pre post : List Char, template.data = pre ++ ("{count}".data ++ post) →
      (generateApprovalRequest inherited template trait principle count).data =
        (generateApprovalRequest inherited ⟨pre⟩ trait principle count).data ++
          ((toString count).data ++
            (generateApprovalRequest inherited ⟨post⟩ trait principle count).data)) ∧
    (¬ HasPlaceholder template.data →
      generateApprovalRequest inherited template trait principle count = template) ∧
    ("{trait}".data <:+: template.data →
      trait.data <:+: (generateApprovalRequest inherited template trait principle count).data) ∧
    ("{count}".data <:+: template.data →
      (toString count).data <:+:
        (generateApprovalRequest inherited template trait principle count).data) := by
  have hT : ∀ pre post : List Char, template.data = pre ++ ("{trait}".data ++ post) →
      (generateApprovalRequest inherited template trait principle count).data =
        (generateApprovalRequest inherited ⟨pre⟩ trait principle count).data ++
          (trait.data ++
            (generateApprovalRequest inherited ⟨post⟩ trait principle count).data) := by
    intro pre post h
    have := fill_at_key inherited trait principle count "trait".data (by decide) (by decide)
      template pre post h
    rw [this]
    rfl
  have hP : ∀ pre post : List Char, template.data = pre ++ ("{principle}".data ++ post) →
      (generateApprovalRequest inherited template trait principle count).data =
        (generateApprovalRequest inherited ⟨pre⟩ trait principle count).data ++
          (principle.data ++
            (generateApprovalRequest inherited ⟨post⟩ trait principle count).data) := by
    intro pre post h
    have := fill_at_key inherited trait principle count "principle".data (by decide)
      (by decide) template pre post h
    rw [this]
    rfl
  have hC : ∀ pre post : List Char, template.data = pre ++ ("{count}".data ++ post) →
      (generateApprovalRequest inherited template trait principle count).data =
        (generateApprovalRequest inherited ⟨pre⟩ trait principle count).data ++
          ((toString count).data ++
            (generateApprovalRequest inherited ⟨post⟩ trait principle count).data) := by
    intro pre post h
    have := fill_at_key inherited trait principle count "count".data (by decide) (by decide)
      template pre post h
    rw [this]
    rfl
  refine ⟨hT, hP, hC, ?_, ?_, ?_⟩
  · intro hno
    unfold generateApprovalRequest fillTemplate
    rw [replacePlaceholders_of_no_placeholder _ _ hno]
  · rintro ⟨pre, post, h⟩
    rw [hT pre post (by rw [← h]; simp)]
    exact ⟨(generateApprovalRequest inherited ⟨pre⟩ trait principle count).data,
      (generateApprovalRequest inherited ⟨post⟩ trait principle count).data, by simp⟩
  · rintro ⟨pre, post, h⟩
    rw [hC pre post (by rw [← h]; simp)]
    exact ⟨(generateApprovalRequest inherited ⟨pre⟩ trait principle count).data,
      (generateApprovalRequest inherited ⟨post⟩ trait principle count).data, by simp⟩

/-- An approval request for three vectors; the trait text holds a placeholder of its own,
which is left as it is. -/
theorem generateApprovalRequest_replaces_witness :
    generateApprovalRequest noInherited
        "Crystallize \"{trait}\"? ({principle}, {count} vectors) {note}" "I keep {count} promises"
        "word" 3
      = "Crystallize \"I keep {count} promises\"? (word, 3 vectors) " ∧
    "{trait}".data <:+:
      ("Crystallize \"{trait}\"? ({principle}, {count} vectors) {note}" : String).data ∧
    "I keep {count} promises".data <:+:
      (generateApprovalRequest noInherited
        "Crystallize \"{trait}\"? ({principle}, {count} vectors) {note}" "I keep {count} promises"
        "word" 3).data :=
  have hin : "{trait}".data <:+:
      ("Crystallize \"{trait}\"? ({principle}, {count} vectors) {note}" : String).data :=
    ⟨"Crystallize \"".data, "\"? ({principle}, {count} vectors) {note}".data, by decide⟩
  ⟨by decide, hin,
   (generateApprovalRequest_replaces noInherited
      "Crystallize \"{trait}\"? ({principle}, {count} vectors) {note}" "I keep {count} promises"
      "word" 3).2.2.2.2.1 hin⟩

/-! ## Proposal run -/

theorem sourceCandidatesOf_subset (dateParse : String → Option Int) (config : Config)
    (candidateIds : Option (List (Option String))) (nowMs : Int) (vectors : List Vector) :
    ∀ v ∈ sourceCandidatesOf dateParse config candidateIds nowMs vectors, v ∈ vectors := by
  intro v hv
  have hfind : ∀ v ∈ findCandidates dateParse vectors config nowMs, v ∈ vectors := by
    intro v hv
    unfold findCandidates at hv
    simp only at hv
    split at hv
    · simp at hv
    · exact (List.mem_filter.mp hv).1
  unfold sourceCandidatesOf at hv
  split at hv
  · unfold selectCandidatesById at hv
    split at hv
    · simp at hv
    · exact (List.mem_filter.mp hv).1
  · exact hfind v hv

/-- The two kinds of outcome of a run that does not raise: a quiet return with one of the
five other statuses, or a proposal. -/
theorem runCrystallization_ok_cases (toLowerCase : String → String)
    (dateParse : String → Option Int) (inherited : String → Option String) (config : Config)
    (api : Api) (candidateIds : Option (List (Option String))) (nowMs : Int)
    (nowIso : String) (replies : Nat → InferenceReply) (vectors : List Vector)
    (outcome : RunOutcome)
    (hRun : runCrystallization toLowerCase dateParse inherited config api candidateIds nowMs
      nowIso replies vectors = Except.ok outcome) :
    (outcome.vectors = vectors ∧ outcome.wrote = false ∧ outcome.sent = [] ∧
      outcome.result.status ∈ ["disabled", "insufficient_candidates",
        "no_principle_alignment", "insufficient_aligned_vectors", "empty_synthesis"]) ∨
    (∃ alignment principle synthesis,
      config.enabled = true ∧
      checkPrincipleAlignment toLowerCase config replies 0
        (sourceCandidatesOf dateParse config candidateIds nowMs vectors) = Except.ok alignment ∧
      chooseDominantPrinciple alignment = some principle ∧
      synthesizeTrait (replies
        (sourceCandidatesOf dateParse config candidateIds nowMs vectors).length)
        = Except.ok synthesis ∧
      synthesis.trait ≠ "" ∧
      minVectorsOf config ≤ ((alignedVectorsOf alignment principle
        (sourceCandidatesOf dateParse config candidateIds nowMs vectors)).length : Int) ∧
      outcome =
        { result :=
            { status := "pending_review", principle := some principle,
              count := some (alignedVectorsOf alignment principle
                (sourceCandidatesOf dateParse config candidateIds nowMs vectors)).length,
              proposedTrait := some synthesis.trait }
          vectors := vectors.map (fun vector =>
            if !((alignedVectorsOf alignment principle
                (sourceCandidatesOf dateParse config candidateIds nowMs vectors)).map
                (fun v => v.id)).contains vector.id then vector
            else
              { vector with
                crystallization := some (proposalState synthesis principle nowIso) })
          wrote := true
          sent := sendMessage api (generateApprovalRequest inherited config.approvalRequest
            synthesis.trait principle (alignedVectorsOf alignment principle
              (sourceCandidatesOf dateParse config candidateIds nowMs vectors)).length) }) := by
  unfold runCrystallization at hRun
  simp only at hRun
  split at hRun
  · left
    simp only [Except.ok.injEq] at hRun
    subst hRun
    simp
  · rename_i hen
    split at hRun
    · left
      simp only [Except.ok.injEq] at hRun
      subst hRun
      simp
    · split at hRun
      · cases hRun
      · rename_i alignment hcheck
        split at hRun
        · left
          simp only [Except.ok.injEq] at hRun
          subst hRun
          simp
        · rename_i principle hdom
          split at hRun
          · left
            simp only [Except.ok.injEq] at hRun
            subst hRun
            simp
          · rename_i hlen
            split at hRun
            · cases hRun
            · rename_i synthesis hsyn
              split at hRun
              · left
                simp only [Except.ok.injEq] at hRun
                subst hRun
                simp
              · rename_i htrait
                right
                simp only [Except.ok.injEq] at hRun
                refine ⟨alignment, principle, synthesis, by simpa using hen, hcheck, hdom, hsyn,
                  htrait, not_lt.mp hlen, hRun.symm⟩

/-! ## Alignment classifier -/

theorem classifyVector_ok_some (toLowerCase : String → String) (principles : List String)
    (vector : Vector) (reply : InferenceReply) (entry : AlignmentResult)
    (h : classifyVector toLowerCase principles vector reply = Except.ok (some entry)) :
    entry.principle ∈ principles ∧ entry.vectorId = vector.id := by
  unfold classifyVector at h
  split at h
  · cases h
  · rename_i parsed
    split at h
    · cases h
    · rename_i principle hp
      split at h
      · rename_i hc
        split at h
        · cases h
        · simp only [Except.ok.injEq, Option.some.injEq] at h
          subst h
          exact ⟨by simpa using hc, rfl⟩
      · cases h

theorem checkPrincipleAlignment_ok (toLowerCase : String → String) (config : Config)
    (replies : Nat → InferenceReply) (call : Nat) (vectors : List Vector)
    (results : List AlignmentResult)
    (h : checkPrincipleAlignment toLowerCase config replies call vectors = Except.ok results) :
    (∀ r ∈ results, r.principle ∈ allowedPrinciples config) ∧
    List.Sublist (results.map (fun r => r.vectorId)) (vectors.map (fun v => v.id)) := by
  induction vectors generalizing call results with
  | nil =>
    simp only [checkPrincipleAlignment, Except.ok.injEq] at h
    subst h
    simp
  | cons v rest ih =>
    simp only [checkPrincipleAlignment] at h
    split at h
    · cases h
    · rename_i entry hentry
      split at h
      · cases h
      · rename_i tail htail
        simp only [Except.ok.injEq] at h
        subst h
        obtain ⟨ih1, ih2⟩ := ih (call + 1) tail htail
        cases entry with
        | none =>
          simp only [Option.toList, List.nil_append, List.map_cons]
          exact ⟨ih1, ih2.cons _⟩
        | some e =>
          obtain ⟨he1, he2⟩ := classifyVector_ok_some _ _ _ _ _ hentry
          simp only [Option.toList, List.singleton_append, List.map_cons, List.mem_cons]
          refine ⟨?_, ?_⟩
          · rintro r (rfl | hr)
            · exact he1
            · exact ih1 r hr
          · rw [he2]
            exact ih2.cons₂ _

theorem classifyVector_usable (toLowerCase : String → String) (principles : List String)
    (vector : Vector) (reply : InferenceReply)
    (h : ReplyUsable toLowerCase principles reply) :
    ∃ entry, classifyVector toLowerCase principles vector reply = Except.ok entry := by
  obtain ⟨parsed, rfl, hstr, hnull⟩ := h
  unfold classifyVector
  simp only
  have hlow : ∃ p, loweredPrinciple toLowerCase parsed.principle = Except.ok p ∧
      (parsed = Parsed.null → p = toLowerCase "") := by
    unfold loweredPrinciple
    by_cases ht : parsed.principle.truthy = true
    · obtain ⟨s, hs⟩ := hstr ht
      refine ⟨toLowerCase s, ?_, ?_⟩
      · rw [hs] at ht ⊢
        simp [ht]
      · intro hn
        rw [hn] at ht
        simp [Parsed.principle, JsValue.truthy] at ht
    · refine ⟨toLowerCase "", ?_, fun _ => rfl⟩
      simp [ht]
  obtain ⟨p, hp, hpn⟩ := hlow
  rw [hp]
  simp only
  split
  · rename_i hc
    cases parsed with
    | null =>
      exfalso
      apply hnull rfl
      rw [← hpn rfl]
      simpa using hc
    | fields a b c d => exact ⟨_, rfl⟩
  · exact ⟨_, rfl⟩

theorem checkPrincipleAlignment_usable (toLowerCase : String → String) (config : Config)
    (replies : Nat → InferenceReply)
    (h : ∀ call, ReplyUsable toLowerCase (allowedPrinciples config) (replies call))
    (call : Nat) (vectors : List Vector) :
    ∃ results, checkPrincipleAlignment toLowerCase config replies call vectors
      = Except.ok results := by
  induction vectors generalizing call with
  | nil => exact ⟨[], rfl⟩
  | cons v rest ih =>
    obtain ⟨entry, he⟩ := classifyVector_usable toLowerCase (allowedPrinciples config) v
      (replies call) (h call)
    obtain ⟨tail, ht⟩ := ih (call + 1)
    exact ⟨entry.toList ++ tail, by simp only [checkPrincipleAlignment, he, ht]⟩

/-- C15 at replies whose `principle` is the number 42, the value `true`, or an array: the
classifier raises a `TypeError` instead of dropping the vector. -/
theorem checkPrincipleAlignment_raises :
    checkPrincipleAlignment asciiLowerCase promptConfig
      (fun _ => InferenceReply.ok
        (Parsed.fields (JsValue.number 42) JsValue.undefined none none)) 0 oldVectors
      = Except.error RunError.typeError ∧
    checkPrincipleAlignment asciiLowerCase promptConfig
      (fun _ => InferenceReply.ok
        (Parsed.fields (JsValue.bool true) JsValue.undefined none none)) 0 oldVectors
      = Except.error RunError.typeError ∧
    checkPrincipleAlignment asciiLowerCase promptConfig
      (fun _ => InferenceReply.ok
        (Parsed.fields JsValue.compound JsValue.undefined none none)) 0 oldVectors
      = Except.error RunError.typeError := by
  refine ⟨rfl, rfl, rfl⟩

/-! ## Proposal run: statuses and effects -/

theorem synthesizeTrait_usable (toLowerCase : String → String) (principles : List String)
    (reply : InferenceReply) (h : ReplyUsable toLowerCase principles reply) :
    ∃ synthesis, synthesizeTrait reply = Except.ok synthesis := by
  obtain ⟨parsed, rfl, _, _⟩ := h
  cases parsed with
  | null => exact ⟨_, rfl⟩
  | fields a b c d => exact ⟨_, rfl⟩

theorem runCrystallization_usable (toLowerCase : String → String)
    (dateParse : String → Option Int) (inherited : String → Option String) (config : Config)
    (api : Api) (candidateIds : Option (List (Option String))) (nowMs : Int)
    (nowIso : String) (replies : Nat → InferenceReply) (vectors : List Vector)
    (hUsable : ∀ call, ReplyUsable toLowerCase (allowedPrinciples config) (replies call)) :
    ∃ outcome, runCrystallization toLowerCase dateParse inherited config api candidateIds
      nowMs nowIso replies vectors = Except.ok outcome := by
  obtain ⟨alignment, hcheck⟩ := checkPrincipleAlignment_usable toLowerCase config replies
    hUsable 0 (sourceCandidatesOf dateParse config candidateIds nowMs vectors)
  obtain ⟨synthesis, hsyn⟩ := synthesizeTrait_usable toLowerCase (allowedPrinciples config)
    (replies (sourceCandidatesOf dateParse config candidateIds nowMs vectors).length)
    (hUsable _)
  unfold runCrystallization
  simp only [hcheck, hsyn]
  split
  · exact ⟨_, rfl⟩
  · split
    · exact ⟨_, rfl⟩
    · split
      · exact ⟨_, rfl⟩
      · split
        · exact ⟨_, rfl⟩
        · split
          · exact ⟨_, rfl⟩
          · exact ⟨_, rfl⟩

/-- C14, as the code has it: on replies on which the classifier does not raise, a run
returns exactly one of the six statuses; it writes the vector collection if and only if
the status is `pending_review`; for every other status the collection is as before and no
message is sent; and for `pending_review` the approval request is handed to the host when
the host has `api.message.send` or `api.messages.send`, and to nobody otherwise. -/
theorem runCrystallization_statuses (toLowerCase : String → String)
    (dateParse : String → Option Int) (inherited : String → Option String) (config : Config)
    (api : Api) (candidateIds : Option (List (Option String))) (nowMs : Int)
    (nowIso : String) (replies : Nat → InferenceReply) (vectors : List Vector)
    (hUsable : ∀ call, ReplyUsable toLowerCase (allowedPrinciples config) (replies call)) :
    ∃ outcome, runCrystallization toLowerCase dateParse inherited config api candidateIds
        nowMs nowIso replies vectors = Except.ok outcome ∧
      outcome.result.status ∈ ["disabled", "insufficient_candidates",
        "no_principle_alignment", "insufficient_aligned_vectors", "empty_synthesis",
        "pending_review"] ∧
      (outcome.wrote = true ↔ outcome.result.status = "pending_review") ∧
      (outcome.result.status ≠ "pending_review" →
        outcome.vectors = vectors ∧ outcome.sent = []) ∧
      (outcome.result.status = "pending_review" →
        ∃ message : String,
          message = generateApprovalRequest inherited config.approvalRequest
            (outcome.result.proposedTrait.getD "") (outcome.result.principle.getD "")
            (outcome.result.count.getD 0) ∧
          (api.messageSend = true ∨ api.messagesSend = true → outcome.sent = [message]) ∧
          (api.messageSend = false ∧ api.messagesSend = false → outcome.sent = [])) := by
  obtain ⟨outcome, hRun⟩ := runCrystallization_usable toLowerCase dateParse inherited config
    api candidateIds nowMs nowIso replies vectors hUsable
  refine ⟨outcome, hRun, ?_⟩
  rcases runCrystallization_ok_cases toLowerCase dateParse inherited config api candidateIds
    nowMs nowIso replies vectors outcome hRun with
    ⟨hv, hw, hs, hst⟩ | ⟨alignment, principle, synthesis, _, _, _, _, _, _, rfl⟩
  · have hne : outcome.result.status ≠ "pending_review" := by
      intro h
      rw [h] at hst
      revert hst
      decide
    refine ⟨?_, ?_, fun _ => ⟨hv, hs⟩, fun h => absurd h hne⟩
    · simp only [List.mem_cons, List.mem_singleton, List.not_mem_nil, or_false] at hst ⊢
      rcases hst with h | h | h | h | h <;> simp [h]
    · rw [hw]
      constructor
      · intro h; cases h
      · intro h; exact absurd h hne
  · refine ⟨by simp, by simp, fun h => absurd rfl h, fun _ => ?_⟩
    refine ⟨_, rfl, ?_, ?_⟩
    · intro h
      simp only [sendMessage, Option.getD_some]
      rcases h with h | h
      · rw [if_pos h]
      · by_cases h1 : api.messageSend = true
        · rw [if_pos h1]
        · rw [if_neg h1, if_pos h]
    · rintro ⟨h1, h2⟩
      simp [sendMessage, h1, h2]

/-- C14 as stated fails on a host without send function: the three old vectors are
proposed and written, and no message is sent. -/
theorem proposal_without_send :
    (runCrystallization asciiLowerCase isoDateParse noInherited promptConfig silentApi none
        1771545600000 "2026-02-20T00:00:00.000Z" promiseReplies oldVectors).toOption.map
        (fun o => (o.result.status, o.wrote, o.sent))
      = some ("pending_review", true, []) := by
  decide

theorem promiseReplies_usable (principles : List String) :
    ∀ call, ReplyUsable asciiLowerCase principles (promiseReplies call) := by
  intro call
  unfold promiseReplies
  split
  · exact ⟨_, rfl, fun _ => ⟨"word", rfl⟩, fun h => by cases h⟩
  · exact ⟨_, rfl, fun h => by simp [Parsed.principle, JsValue.truthy] at h,
      fun h => by cases h⟩

/-- The end-to-end scenario on a host with a send function: one message is sent. -/
theorem runCrystallization_statuses_witness :
    (∀ call, ReplyUsable asciiLowerCase (allowedPrinciples promptConfig)
      (promiseReplies call)) ∧
    (runCrystallization asciiLowerCase isoDateParse noInherited promptConfig sendingApi none
        1771545600000 "2026-02-20T00:00:00.000Z" promiseReplies oldVectors).toOption.map
        (fun o => (o.result.status, o.wrote, o.sent))
      = some ("pending_review", true,
          ["Crystallize \"I keep my promises\"? (word, 3 vectors)"]) ∧
    ∃ outcome, runCrystallization asciiLowerCase isoDateParse noInherited promptConfig
        sendingApi none 1771545600000 "2026-02-20T00:00:00.000Z" promiseReplies oldVectors
        = Except.ok outcome ∧
      (outcome.wrote = true ↔ outcome.result.status = "pending_review") :=
  ⟨promiseReplies_usable _, by decide,
   match runCrystallization_statuses asciiLowerCase isoDateParse noInherited promptConfig
      sendingApi none 1771545600000 "2026-02-20T00:00:00.000Z" promiseReplies oldVectors
      (promiseReplies_usable _) with
   | ⟨outcome, hRun, _, hw, _⟩ => ⟨outcome, hRun, hw⟩⟩

/-! ## Proposal run: candidates -/

theorem findCandidates_not_blocked (dateParse : String → Option Int) (vectors : List Vector)
    (config : Config) (nowMs : Int) :
    ∀ v ∈ findCandidates dateParse vectors config nowMs,
      statusOf v ≠ some "pending_review" ∧ statusOf v ≠ some "approved" := by
  intro v hv
  unfold findCandidates at hv
  simp only at hv
  split at hv
  · simp at hv
  · have hg := (List.mem_filter.mp hv).2
    unfold candidateGate isBlockedByStatus at hg
    by_cases h1 : statusOf v = some "pending_review"
    · simp [h1] at hg
    · by_cases h2 : statusOf v = some "approved"
      · simp [h2] at hg
      · exact ⟨h1, h2⟩

theorem alignedVectorsOf_subset (alignment : List AlignmentResult) (principle : String)
    (candidates : List Vector) :
    ∀ v ∈ alignedVectorsOf alignment principle candidates, v ∈ candidates := by
  intro v hv
  unfold alignedVectorsOf at hv
  exact (List.mem_filter.mp hv).1

/-- With pairwise distinct ids, the id of a vector of the store is among the ids of a
sublist of the store exactly when the vector is in the sublist. -/
theorem id_mem_iff_mem (vectors part : List Vector)
    (hIds : (vectors.map (fun v => v.id)).Nodup) (hsub : ∀ v ∈ part, v ∈ vectors)
    (x : Vector) (hx : x ∈ vectors) :
    (part.map (fun v => v.id)).contains x.id = true ↔ x ∈ part := by
  constructor
  · intro h
    have hm : x.id ∈ part.map (fun v => v.id) := by simpa using h
    obtain ⟨g, hg, hgid⟩ := List.mem_map.mp hm
    have := List.inj_on_of_nodup_map hIds (hsub g hg) hx hgid
    exact this ▸ hg
  · intro h
    exact mem_group_contains part x h

/-- C17, as the code has it: a run without candidate ids, or with an empty list of them,
selects no vector whose status is `pending_review` or `approved`, and on a store with
pairwise distinct ids it writes every such vector back as it was; a run with a non-empty
list of candidate ids selects every vector whose id is listed, whatever its status. -/
theorem heartbeat_never_selects_blocked (toLowerCase : String → String)
    (dateParse : String → Option Int) (inherited : String → Option String) (config : Config)
    (api : Api) (nowMs : Int) (nowIso : String) (replies : Nat → InferenceReply)
    (vectors : List Vector) :
    (∀ candidateIds : Option (List (Option String)),
      candidateIds = none ∨ candidateIds = some [] →
      ∀ v ∈ sourceCandidatesOf dateParse config candidateIds nowMs vectors,
        statusOf v ≠ some "pending_review" ∧ statusOf v ≠ some "approved") ∧
    ((vectors.map (fun v => v.id)).Nodup →
      ∀ (candidateIds : Option (List (Option String))) (outcome : RunOutcome),
        candidateIds = none ∨ candidateIds = some [] →
        runCrystallization toLowerCase dateParse inherited config api candidateIds nowMs
          nowIso replies vectors = Except.ok outcome →
        List.Forall₂ (fun old new =>
            statusOf old = some "pending_review" ∨ statusOf old = some "approved" → new = old)
          vectors outcome.vectors) ∧
    (∀ (id : Option String) (ids : List (Option String)),
      sourceCandidatesOf dateParse config (some (id :: ids)) nowMs vectors =
        vectors.filter (fun v => (id :: ids).contains v.id)) := by
  have hsel : ∀ candidateIds : Option (List (Option String)),
      candidateIds = none ∨ candidateIds = some [] →
      ∀ v ∈ sourceCandidatesOf dateParse config candidateIds nowMs vectors,
        statusOf v ≠ some "pending_review" ∧ statusOf v ≠ some "approved" := by
    intro candidateIds hc v hv
    rcases hc with rfl | rfl <;>
      exact findCandidates_not_blocked dateParse vectors config nowMs v hv
  refine ⟨hsel, ?_, ?_⟩
  · intro hIds candidateIds outcome hc hRun
    rcases runCrystallization_ok_cases toLowerCase dateParse inherited config api
      candidateIds nowMs nowIso replies vectors outcome hRun with
      ⟨hv, _, _, _⟩ | ⟨alignment, principle, synthesis, _, _, _, _, _, _, rfl⟩
    · rw [hv, List.forall₂_same]
      intro x _ _
      rfl
    · simp only
      rw [List.forall₂_map_right_iff, List.forall₂_same]
      intro x hx hblocked
      have hnot : x ∉ alignedVectorsOf alignment principle
          (sourceCandidatesOf dateParse config candidateIds nowMs vectors) := by
        intro hmem
        have := hsel candidateIds hc x (alignedVectorsOf_subset _ _ _ x hmem)
        rcases hblocked with h | h
        · exact this.1 h
        · exact this.2 h
      have hcontains : ((alignedVectorsOf alignment principle
          (sourceCandidatesOf dateParse config candidateIds nowMs vectors)).map
          (fun v => v.id)).contains x.id = false := by
        rw [← Bool.not_eq_true]
        intro h
        exact hnot ((id_mem_iff_mem vectors _ hIds (fun v hv =>
          sourceCandidatesOf_subset dateParse config candidateIds nowMs vectors v
            (alignedVectorsOf_subset _ _ _ v hv)) x hx).mp h)
      simp only [hcontains, Bool.not_false, if_true]
  · intro id ids
    simp [sourceCandidatesOf, selectCandidatesById]

/-- C17 as stated fails on a task run: with the candidate ids `a`, `b`, `c` the two pending
vectors and the approved vector of the two-group store are selected, and the approved
vector `c` is written back as `pending_review`, without its `approvedAt` and `traitId`. -/
theorem task_run_overwrites_approved :
    (sourceCandidatesOf isoDateParse promptConfig (some [some "a", some "b", some "c"])
        1771545600000 twoGroupStore.vectors).map (fun v => (v.id, statusOf v))
      = [ (some "a", some "pending_review"), (some "b", some "pending_review"),
          (some "c", some "approved") ] ∧
    (runCrystallization asciiLowerCase isoDateParse noInherited promptConfig sendingApi
        (some [some "a", some "b", some "c"]) 1771545600000 "2026-02-20T00:00:00.000Z"
        promiseReplies twoGroupStore.vectors).toOption.map
        (fun o => (o.result.status, o.vectors.map
          (fun v => (v.id, statusOf v, v.crystallization.bind fun c => c.traitId))))
      = some ("pending_review",
          [ (some "a", some "pending_review", none), (some "b", some "pending_review", none),
            (some "c", some "pending_review", none), (some "d", some "pending_review", none),
            (some "e", some "rejected_crystallization", none) ]) := by
  refine ⟨by decide, by decide⟩

/-- A heartbeat scan of the two-group store extended by the three old vectors selects the
old vectors only. -/
theorem heartbeat_never_selects_blocked_witness :
    (twoGroupStore.vectors.map (fun v => v.id)).Nodup ∧
    sourceCandidatesOf isoDateParse promptConfig none 1771545600000
      (twoGroupStore.vectors ++ oldVectors) = oldVectors ∧
    ∀ v ∈ sourceCandidatesOf isoDateParse promptConfig none 1771545600000
        (twoGroupStore.vectors ++ oldVectors),
      statusOf v ≠ some "pending_review" ∧ statusOf v ≠ some "approved" :=
  ⟨by decide, by decide,
   (heartbeat_never_selects_blocked asciiLowerCase isoDateParse noInherited promptConfig
      sendingApi 1771545600000 "2026-02-20T00:00:00.000Z" promiseReplies
      (twoGroupStore.vectors ++ oldVectors)).1 none (Or.inl rfl)⟩

/-! ## Proposal run: the proposal -/

theorem mem_alignedVectorsOf (alignment : List AlignmentResult) (principle : String)
    (candidates : List Vector) (v : Vector) :
    v ∈ alignedVectorsOf alignment principle candidates ↔
      v ∈ candidates ∧ ∃ a ∈ alignment, a.vectorId = v.id ∧ a.principle = principle := by
  unfold alignedVectorsOf
  simp only [List.mem_filter, List.contains_eq_any_beq, List.any_eq_true, List.mem_map,
    beq_iff_eq]
  constructor
  · rintro ⟨hv, i, ⟨a, ⟨ha, hp⟩, rfl⟩, hi⟩
    exact ⟨hv, a, ha, hi.symm, hp⟩
  · rintro ⟨hv, a, ha, hi, hp⟩
    exact ⟨hv, a.vectorId, ⟨a, ⟨ha, hp⟩, rfl⟩, hi.symm⟩

theorem alignedVectorsOf_eq_filter (alignment : List AlignmentResult) (principle : String)
    (candidates : List Vector) :
    alignedVectorsOf alignment principle candidates
      = candidates.filter (fun v =>
          alignment.any (fun a => a.vectorId == v.id && a.principle == principle)) := by
  unfold alignedVectorsOf
  apply List.filter_congr
  intro v _
  rw [Bool.eq_iff_iff]
  simp only [List.contains_eq_any_beq, List.any_eq_true, List.mem_map, List.mem_filter,
    beq_iff_eq, Bool.and_eq_true]
  constructor
  · rintro ⟨i, ⟨a, ⟨ha, hp⟩, rfl⟩, hi⟩
    exact ⟨a, ha, hi.symm, hp⟩
  · rintro ⟨a, ha, hi, hp⟩
    exact ⟨a.vectorId, ⟨a, ⟨ha, hp⟩, rfl⟩, hi.symm⟩

theorem sourceCandidatesOf_sublist (dateParse : String → Option Int) (config : Config)
    (candidateIds : Option (List (Option String))) (nowMs : Int) (vectors : List Vector) :
    List.Sublist (sourceCandidatesOf dateParse config candidateIds nowMs vectors) vectors := by
  have hfind : List.Sublist (findCandidates dateParse vectors config nowMs) vectors := by
    unfold findCandidates
    simp only
    split
    · exact List.nil_sublist _
    · exact List.filter_sublist _
  unfold sourceCandidatesOf
  split
  · unfold selectCandidatesById
    split
    · exact List.nil_sublist _
    · exact List.filter_sublist _
  · exact hfind

theorem alignedVectorsOf_sublist (alignment : List AlignmentResult) (principle : String)
    (candidates : List Vector) :
    List.Sublist (alignedVectorsOf alignment principle candidates) candidates := by
  unfold alignedVectorsOf
  exact List.filter_sublist _

/-- C18: when a run on a store with pairwise distinct ids returns `pending_review`, the
stamped vectors `aligned` are the list of the candidates, in store order and each once,
for which the classifier returned an entry with the dominant principle; the returned
count is the length of that list and is at least `minVectors`; each of them is written
with the crystallization state made of `pending_review`, the synthesized trait, the
dominant principle, the synthesized pattern and the clock reading, its other fields as
before; and every other vector is written back unchanged. -/
theorem runCrystallization_pending_review (toLowerCase : String → String)
    (dateParse : String → Option Int) (inherited : String → Option String) (config : Config)
    (api : Api) (candidateIds : Option (List (Option String))) (nowMs : Int)
    (nowIso : String) (replies : Nat → InferenceReply) (vectors : List Vector)
    (outcome : RunOutcome)
    (hIds : (vectors.map (fun v => v.id)).Nodup)
    (hRun : runCrystallization toLowerCase dateParse inherited config api candidateIds nowMs
      nowIso replies vectors = Except.ok outcome)
    (hStatus : outcome.result.status = "pending_review") :
    ∃ (candidates : List Vector) (alignment : List AlignmentResult) (principle : String)
        (synthesis : Synthesis) (aligned : List Vector),
      candidates = sourceCandidatesOf dateParse config candidateIds nowMs vectors ∧
      checkPrincipleAlignment toLowerCase config replies 0 candidates = Except.ok alignment ∧
      chooseDominantPrinciple alignment = some principle ∧
      synthesizeTrait (replies candidates.length) = Except.ok synthesis ∧
      synthesis.trait ≠ "" ∧
      aligned = candidates.filter (fun v =>
        alignment.any (fun a => a.vectorId == v.id && a.principle == principle)) ∧
      aligned.Nodup ∧
      (aligned.map (fun v => v.id)).Nodup ∧
      List.Sublist aligned vectors ∧
      (∀ v, v ∈ aligned ↔
        v ∈ candidates ∧ ∃ a ∈ alignment, a.vectorId = v.id ∧ a.principle = principle) ∧
      outcome.result.count = some aligned.length ∧
      minVectorsOf config ≤ (aligned.length : Int) ∧
      (∀ m, config.minVectors = some m → m ≤ (aligned.length : Int)) ∧
      outcome.result.principle = some principle ∧
      outcome.result.proposedTrait = some synthesis.trait ∧
      List.Forall₂ (fun old new =>
          (old ∈ aligned →
            new.crystallization = some
              { status := some "pending_review", proposedTrait := some synthesis.trait,
                principle := some principle, pattern := some synthesis.pattern,
                proposedAt := some nowIso } ∧
            { new with crystallization := old.crystallization } = old) ∧
          (old ∉ aligned → new = old))
        vectors outcome.vectors := by
  rcases runCrystallization_ok_cases toLowerCase dateParse inherited config api candidateIds
    nowMs nowIso replies vectors outcome hRun with
    ⟨_, _, _, hst⟩ | ⟨alignment, principle, synthesis, _, hcheck, hdom, hsyn, htrait, hlen, rfl⟩
  · exfalso
    rw [hStatus] at hst
    revert hst
    decide
  · have hsub : List.Sublist (alignedVectorsOf alignment principle
        (sourceCandidatesOf dateParse config candidateIds nowMs vectors)) vectors :=
      (alignedVectorsOf_sublist _ _ _).trans
        (sourceCandidatesOf_sublist dateParse config candidateIds nowMs vectors)
    refine ⟨_, alignment, principle, synthesis,
      alignedVectorsOf alignment principle
        (sourceCandidatesOf dateParse config candidateIds nowMs vectors),
      rfl, hcheck, hdom, hsyn, htrait, alignedVectorsOf_eq_filter _ _ _,
      (List.Nodup.of_map _ hIds).sublist hsub,
      hIds.sublist (hsub.map _), hsub,
      mem_alignedVectorsOf _ _ _, rfl, hlen, ?_, rfl, rfl, ?_⟩
    · intro m hm
      unfold minVectorsOf at hlen
      rw [hm] at hlen
      simp only at hlen
      split at hlen
      · rename_i h0
        rw [h0]
        exact Int.ofNat_nonneg _
      · exact hlen
    · simp only
      rw [List.forall₂_map_right_iff, List.forall₂_same]
      intro x hx
      have hiff := id_mem_iff_mem vectors
        (alignedVectorsOf alignment principle
          (sourceCandidatesOf dateParse config candidateIds nowMs vectors)) hIds
        (fun v hv => sourceCandidatesOf_subset dateParse config candidateIds nowMs vectors v
          (alignedVectorsOf_subset _ _ _ v hv)) x hx
      constructor
      · intro hmem
        rw [hiff.mpr hmem]
        exact ⟨rfl, rfl⟩
      · intro hnot
        have hc : ((alignedVectorsOf alignment principle
            (sourceCandidatesOf dateParse config candidateIds nowMs vectors)).map
            (fun v => v.id)).contains x.id = false := by
          rw [← Bool.not_eq_true]
          exact fun h => hnot (hiff.mp h)
        simp only [hc, Bool.not_false, if_true]

/-- The end-to-end scenario: three old vectors, all classified `word`, and the synthesis
`I keep my promises` with pattern `commitment` leave all three `pending_review` with that
trait and the count 3, the three being the stamped vectors, each counted once, and the
message holds the trait text and the count. -/
theorem runCrystallization_pending_review_witness :
    (oldVectors.map (fun v => v.id)).Nodup ∧
    runCrystallization asciiLowerCase isoDateParse noInherited promptConfig sendingApi none
      1771545600000 "2026-02-20T00:00:00.000Z" promiseReplies oldVectors
      = Except.ok promiseOutcome ∧
    promiseOutcome.vectors.map (fun v => (v.id, statusOf v,
        v.crystallization.bind fun c => c.proposedTrait))
      = [ (some "v1", some "pending_review", some "I keep my promises"),
          (some "v2", some "pending_review", some "I keep my promises"),
          (some "v3", some "pending_review", some "I keep my promises") ] ∧
    promiseOutcome.result.count = some 3 ∧
    promiseOutcome.sent = ["Crystallize \"I keep my promises\"? (word, 3 vectors)"] ∧
    ∃ aligned : List Vector, aligned.Nodup ∧ List.Sublist aligned oldVectors ∧
      aligned.length = 3 ∧ promiseOutcome.result.count = some aligned.length ∧
      minVectorsOf promptConfig ≤ (aligned.length : Int) :=
  ⟨by decide, rfl, by decide, by decide, by decide,
   match runCrystallization_pending_review asciiLowerCase isoDateParse noInherited
      promptConfig sendingApi none 1771545600000 "2026-02-20T00:00:00.000Z" promiseReplies
      oldVectors promiseOutcome (by decide) rfl rfl with
   | ⟨_, _, _, _, aligned, _, _, _, _, _, _, hnodup, _, hsub, _, hcount, hmin, _⟩ =>
     ⟨aligned, hnodup, hsub,
      Option.some.inj (hcount.symm.trans rfl), hcount, hmin⟩⟩

/-- An edit of the later group of the two-group store on 2026-02-01: the latest pending
group afterwards has the ids `b` and `d` again. -/
theorem onAgentEnd_edit_regroup_example :
    (latestPendingGroup isoDateParse twoGroupStore.vectors).map (fun v => v.id)
      = [some "b", some "d"] ∧
    (latestPendingGroup isoDateParse
        (onAgentEnd asciiLowerCase isoDateParse liveConfig febClock
          { lastUserMessage := some "edit: I say what I think" } twoGroupStore).vectors).map
        (fun v => v.id)
      = (latestPendingGroup isoDateParse twoGroupStore.vectors).map (fun v => v.id) :=
  ⟨by decide,
   (onAgentEnd_edit_regroup asciiLowerCase isoDateParse liveConfig febClock
      { lastUserMessage := some "edit: I say what I think" } twoGroupStore 1769904000000
      rfl (by decide) (by decide) (by decide) (by decide) (by decide)
      (by
        intro v hv hst t ht
        have hall : ∀ v ∈ twoGroupStore.vectors, ∀ t ∈ (proposedMs isoDateParse v).toList,
            t < 1769904000000 := by decide
        exact hall v hv t (by simp [ht]))).2.2.2.2 (by decide)⟩

end Crystallization
